import Mathlib

/-!
Shallow embedding of `pennylane/templates/state_preparations/mottonen.py`
(the Möttönen state-preparation decomposition) and verification of the
specification claims about it.

Conventions of the embedding:
* Python floats are modelled as real numbers `ℝ`, complex entries as `ℂ`.
* Binary strings (the Gray code words built from the characters "0"/"1")
  are modelled as `List Bool` with the head being the leftmost character
  (`true` stands for "1").
* Wire labels are modelled as `ℕ`.
* The driver raises `ValueError` on invalid input; this is modelled by
  returning `Except String (List Operation)`, where `Except.error`
  corresponds to a raised exception (no operations emitted) and
  `Except.ok ops` to the sequence of queued operations.
-/

namespace Mottonen

/-! ### Gray code generation (`gray_code`, mottonen.py lines 28-51) -/

/-- One level of the recursion inside `gray_code_recurse`: the loop
`for i in range(k-1, -1, -1): g.append("1" + g[i])` appends the reverse of
`g` with "1" prepended to each word, and the second loop replaces each
original entry by "0" prepended to it. -/
def gray_step (g : List (List Bool)) : List (List Bool) :=
  (g.map (fun w => false :: w)) ++ (g.reverse.map (fun w => true :: w))

/-- `gray_code_recurse g rank` applies `gray_step` once per recursion level;
the Python recursion returns unchanged once `rank <= 0`, so only the number
of positive steps matters and it is taken here as a natural number. -/
def gray_code_recurse (g : List (List Bool)) : ℕ → List (List Bool)
  | 0 => g
  | n + 1 => gray_code_recurse (gray_step g) n

/-- `gray_code(rank)` from the source: starts from `g = ["0", "1"]` and calls
`gray_code_recurse(g, rank - 1)`.  For `rank ≤ 1` (including every negative
rank) no recursion step runs, which `Int.toNat` captures exactly. -/
def gray_code (rank : ℤ) : List (List Bool) :=
  gray_code_recurse [[false], [true]] (rank - 1).toNat

/-- `int(code, 2)`: the numeric value of a binary word, most significant
character first. -/
def binToNat (w : List Bool) : ℕ :=
  w.foldl (fun acc b => 2 * acc + (if b then 1 else 0)) 0

/-! ### The sign matrix (`_matrix_M_entry`, lines 54-75) -/

/-- The `while b_and_g > 0` loop of `_matrix_M_entry`, counting set bits by
testing the low bit and shifting right.  The loop runs at most as many
iterations as the bit length of its argument, so the argument itself is a
sufficient amount of fuel; `sum_of_ones` below instantiates the fuel that
way, making the translation total and executable. -/
def sum_of_ones_loop : ℕ → ℕ → ℕ
  | 0, _ => 0
  | fuel + 1, b =>
    if 0 < b then (if b % 2 = 1 then 1 else 0) + sum_of_ones_loop fuel (b / 2) else 0

/-- Number of set bits computed by the loop in `_matrix_M_entry`. -/
def sum_of_ones (b : ℕ) : ℕ := sum_of_ones_loop b b

/-- `_matrix_M_entry(row, col)`: `(-1) ** popcount(row & ((col >> 1) ^ col))`. -/
def matrix_M_entry (row col : ℕ) : ℤ :=
  (-1) ^ sum_of_ones (row &&& ((col >>> 1) ^^^ col))

/-! ### `_compute_theta` (lines 78-98) -/

/-- `_compute_theta(alpha)`: builds `M_trans` with
`M_trans[i, j] = _matrix_M_entry(j, i)` and returns `(M_trans @ alpha) / 2**k`
with `k = np.log2(len(alpha))`.  The function is only ever called with
`len(alpha)` a power of two, for which `np.log2` is exact and agrees with
`Nat.log2`. -/
noncomputable def compute_theta (alpha : List ℝ) : List ℝ :=
  let ln := alpha.length
  (List.range ln).map (fun i =>
    (((List.range ln).map (fun j => (matrix_M_entry j i : ℝ) * alpha.getD j 0)).sum)
      / 2 ^ Nat.log2 ln)

/-! ### Operations -/

/-- The two parameterized rotation kinds used by the template
(`qml.RY` and `qml.RZ`). -/
inductive Gate
  | RY
  | RZ
  deriving DecidableEq

/-- An emitted operation: a single-parameter rotation on a target wire, or a
`qml.CNOT` bit-flip with a control and a target wire. -/
inductive Operation
  | rot (g : Gate) (angle : ℝ) (target : ℕ)
  | CNOT (control target : ℕ)

/-! ### `_uniform_rotation_dagger` (lines 101-143) -/

/-- `_uniform_rotation_dagger(gate, alpha, control_wires, target_wire)`:
computes `theta`, and for an empty control set emits the single rotation
(only when `theta[0] != 0.0`); otherwise walks the Gray code of rank
`len(control_wires)`, emitting for each position `i` the rotation
`gate(theta[i])` (elided exactly when `theta[i] == 0.0`) followed
unconditionally by `CNOT(control_wires[control_indices[i]], target_wire)`
where `control_indices[i] = int(log2(int(code[i],2) ^ int(code[(i+1)%len],2)))`. -/
noncomputable def uniform_rotation_dagger (gate : Gate) (alpha : List ℝ)
    (control_wires : List ℕ) (target_wire : ℕ) : List Operation :=
  let theta := compute_theta alpha
  let gray_code_rank := control_wires.length
  if gray_code_rank = 0 then
    if theta.getD 0 0 ≠ 0 then [Operation.rot gate (theta.getD 0 0) target_wire] else []
  else
    let code := gray_code gray_code_rank
    let num_selections := code.length
    let control_indices := (List.range num_selections).map (fun i =>
      Nat.log2 (binToNat (code.getD i []) ^^^ binToNat (code.getD ((i + 1) % num_selections) [])))
    ((List.range num_selections).map (fun i =>
      (if theta.getD i 0 ≠ 0 then [Operation.rot gate (theta.getD i 0) target_wire] else [])
        ++ [Operation.CNOT (control_wires.getD (control_indices.getD i 0) 0) target_wire])).flatten

/-! ### `_get_alpha_z` (lines 146-175) -/

/-- `_get_alpha_z(omega, n, k)`: for each `j` in `1 .. 2^(n-k)` (modelled by
`jm = j - 1` ranging over `List.range (2^(n-k))`) sums, over `l` in
`1 .. 2^(k-1)`, the differences
`(omega[(2j-1)*2^(k-1)+l-1] - omega[(2j-2)*2^(k-1)+l-1]) / 2^(k-1)`. -/
noncomputable def get_alpha_z (omega : List ℝ) (n k : ℕ) : List ℝ :=
  (List.range (2 ^ (n - k))).map (fun jm =>
    ((List.range (2 ^ (k - 1))).map (fun lm =>
      (omega.getD ((2 * (jm + 1) - 1) * 2 ^ (k - 1) + (lm + 1) - 1) 0
        - omega.getD ((2 * (jm + 1) - 2) * 2 ^ (k - 1) + (lm + 1) - 1) 0)
        / 2 ^ (k - 1))).sum)

/-! ### `_get_alpha_y` (lines 178-211) -/

/-- `_get_alpha_y(a, n, k)`: numerator `j` sums `|a[(2(j+1)-1)*2^(k-1)+l]|^2`
over `l < 2^(k-1)`, denominator `j` sums `|a[j*2^k+l]|^2` over `l < 2^k`;
the quotient is masked to `0` where the denominator is exactly `0`
(`np.divide` with `out=zeros, where=denominator != 0`), and the result is
`2 * arcsin(sqrt(division))`. -/
noncomputable def get_alpha_y (a : List ℝ) (n k : ℕ) : List ℝ :=
  (List.range (2 ^ (n - k))).map (fun j =>
    let numerator :=
      ((List.range (2 ^ (k - 1))).map (fun l =>
        |a.getD ((2 * (j + 1) - 1) * 2 ^ (k - 1) + l) 0| ^ 2)).sum
    let denominator :=
      ((List.range (2 ^ k)).map (fun l =>
        |a.getD (j * 2 ^ k + l) 0| ^ 2)).sum
    let division := if denominator ≠ 0 then numerator / denominator else 0
    2 * Real.arcsin (Real.sqrt division))

/-! ### The driver (`MottonenStatePreparation`, lines 214-291) -/

/-- `MottonenStatePreparation(state_vector, wires)`.  `check_shape` raises
unless the vector has shape `(2^n_wires,)`; the normalization check is
`np.isclose(norm, 1.0, atol=1e-3)` which with numpy's default relative
tolerance `rtol=1e-5` accepts exactly when `|norm - 1| ≤ 1e-3 + 1e-5 * |1|`.
On success the queued operations are the Y-rotation cascade for
`k = n_wires, ..., 1` followed by the Z-rotation cascade for the same `k`
range, the latter guarded by `len(alpha_z_k) > 0`. -/
noncomputable def MottonenStatePreparation (state_vector : List ℂ) (wires : List ℕ) :
    Except String (List Operation) :=
  let n_wires := wires.length
  if state_vector.length ≠ 2 ^ n_wires then
    Except.error "state_vector must be of shape (2 ** len(wires),)"
  else
    let norm := (state_vector.map (fun s => Complex.abs s ^ 2)).sum
    if ¬ (|norm - 1| ≤ 1e-3 + 1e-5 * |(1 : ℝ)|) then
      Except.error "state_vector has to be of length 1.0"
    else
      let wires_reverse := wires.reverse
      let a := state_vector.map Complex.abs
      let omega := state_vector.map Complex.arg
      let y_ops := ((List.range n_wires).map (fun m =>
        let k := n_wires - m
        uniform_rotation_dagger Gate.RY (get_alpha_y a n_wires k)
          (wires_reverse.drop k) (wires_reverse.getD (k - 1) 0))).flatten
      let z_ops := ((List.range n_wires).map (fun m =>
        let k := n_wires - m
        let alpha_z_k := get_alpha_z omega n_wires k
        if 0 < alpha_z_k.length then
          uniform_rotation_dagger Gate.RZ alpha_z_k
            (wires_reverse.drop k) (wires_reverse.getD (k - 1) 0)
        else [])).flatten
      Except.ok (y_ops ++ z_ops)

/-! ### Spec-side definitions (written from the specification text, for
comparison with the source-derived definitions above) -/

/-- Spec side: "count set bits in `b`", as the number of ones among the
binary digits of `b`. -/
def popcount_spec (b : ℕ) : ℕ := (Nat.digits 2 b).count 1

/-- Spec side: `entry(row, col) = (-1)^(popcount (row AND ((col >> 1) XOR col)))`. -/
def matrix_M_entry_spec (row col : ℕ) : ℤ :=
  (-1) ^ popcount_spec (row &&& ((col >>> 1) ^^^ col))

/-- The claim's formula for the theta vector: `Theta = (M @ Alpha) / L` with
`M[i][j] = entry(j+1, i+1)` for 0-based `i`, `j`. -/
noncomputable def compute_theta_claim (alpha : List ℝ) : List ℝ :=
  let L := alpha.length
  (List.range L).map (fun i =>
    (((List.range L).map (fun j =>
      (matrix_M_entry_spec (j + 1) (i + 1) : ℝ) * alpha.getD j 0)).sum) / L)

/-- The amended formula for the theta vector: `Theta = (M @ Alpha) / L` with
`M[i][j] = entry(j, i)`, the 0-based loop indices being passed to the entry
formula unshifted, exactly as the source does. -/
noncomputable def compute_theta_amended (alpha : List ℝ) : List ℝ :=
  let L := alpha.length
  (List.range L).map (fun i =>
    (((List.range L).map (fun j =>
      (matrix_M_entry_spec j i : ℝ) * alpha.getD j 0)).sum) / L)

/-- Spec side: `controlIndices[i] = log2(code[i] XOR code[(i+1) mod 2^r])`
over the Gray code of rank `r`. -/
def control_index_spec (r i : ℕ) : ℕ :=
  Nat.log2 (binToNat ((gray_code r).getD i [])
    ^^^ binToNat ((gray_code r).getD ((i + 1) % 2 ^ r) []))

/-- Number of positions at which two binary words differ. -/
def hamming (a b : List Bool) : ℕ := (List.zipWith (fun x y => x != y) a b).count true

/-- Recognizer for bit-flip operations. -/
def Operation.isCNOT : Operation → Bool
  | Operation.CNOT _ _ => true
  | _ => false

/-- Recognizer for rotation operations. -/
def Operation.isRot : Operation → Bool
  | Operation.rot _ _ _ => true
  | _ => false

/-! ### The bit-counting loop computes the popcount -/

theorem sum_of_ones_loop_eq_popcount (fuel : ℕ) : ∀ b : ℕ, b ≤ fuel →
    sum_of_ones_loop fuel b = popcount_spec b := by
  induction fuel with
  | zero =>
    intro b hb
    have hb0 : b = 0 := Nat.le_zero.mp hb
    subst hb0
    simp [sum_of_ones_loop, popcount_spec]
  | succ n ih =>
    intro b hb
    by_cases hpos : 0 < b
    · rw [show sum_of_ones_loop (n + 1) b
          = (if b % 2 = 1 then 1 else 0) + sum_of_ones_loop n (b / 2) from by
            simp [sum_of_ones_loop, hpos]]
      rw [ih (b / 2) (by omega)]
      unfold popcount_spec
      rw [Nat.digits_def' (by norm_num : 1 < 2) hpos, List.count_cons]
      have h2 : b % 2 = 0 ∨ b % 2 = 1 := Nat.mod_two_eq_zero_or_one b
      rcases h2 with h2 | h2 <;> simp [h2, Nat.add_comm]
    · have hb0 : b = 0 := by omega
      subst hb0
      simp [sum_of_ones_loop, popcount_spec]

theorem sum_of_ones_eq_popcount (b : ℕ) : sum_of_ones b = popcount_spec b :=
  sum_of_ones_loop_eq_popcount b b le_rfl

theorem matrix_M_entry_eq_spec (row col : ℕ) :
    matrix_M_entry row col = matrix_M_entry_spec row col := by
  unfold matrix_M_entry matrix_M_entry_spec
  rw [sum_of_ones_eq_popcount]

theorem matrix_M_entry_spec_pm_one (row col : ℕ) :
    matrix_M_entry_spec row col = 1 ∨ matrix_M_entry_spec row col = -1 := by
  unfold matrix_M_entry_spec
  rcases Nat.even_or_odd (popcount_spec (row &&& ((col >>> 1) ^^^ col))) with h | h
  · exact Or.inl (Even.neg_one_pow h)
  · exact Or.inr (Odd.neg_one_pow h)

/-! ### Hamming distance lemmas -/

theorem hamming_cons (x y : Bool) (a b : List Bool) :
    hamming (x :: a) (y :: b) = (if x = y then 0 else 1) + hamming a b := by
  cases x <;> cases y <;> simp [hamming, List.count_cons, Nat.add_comm]

theorem hamming_self (a : List Bool) : hamming a a = 0 := by
  induction a with
  | nil => rfl
  | cons x a ih => rw [hamming_cons, if_pos rfl, ih]

theorem hamming_comm (a : List Bool) : ∀ b : List Bool, hamming a b = hamming b a := by
  induction a with
  | nil => intro b; cases b <;> rfl
  | cons x a ih =>
    intro b
    cases b with
    | nil => rfl
    | cons y b =>
      rw [hamming_cons, hamming_cons, ih b]
      by_cases h : x = y
      · rw [if_pos h, if_pos h.symm]
      · rw [if_neg h, if_neg (fun hyx => h hyx.symm)]

theorem hamming_cons_same (x : Bool) (a b : List Bool) :
    hamming (x :: a) (x :: b) = hamming a b := by
  rw [hamming_cons, if_pos rfl, Nat.zero_add]

theorem hamming_cons_ne (x y : Bool) (a : List Bool) (h : x ≠ y) :
    hamming (x :: a) (y :: a) = 1 := by
  rw [hamming_cons, if_neg h, hamming_self]

/-! ### The Gray code invariant -/

/-- Invariant carried through the recursion of `gray_code`: the list of code
words is non-empty, all words have bit-length `L`, cyclically adjacent words
(including the wraparound pair) are at Hamming distance exactly 1, and the
first word is all zeros. -/
def GrayInv (L : ℕ) (g : List (List Bool)) : Prop :=
  g ≠ [] ∧ (∀ w ∈ g, w.length = L) ∧
    List.Chain' (fun a b => hamming a b = 1) g ∧
    (∀ x ∈ g.getLast?, ∀ y ∈ g.head?, hamming x y = 1) ∧
    g.head? = some (List.replicate L false)

theorem grayInv_base : GrayInv 1 [[false], [true]] := by
  refine ⟨by simp, ?_, ?_, ?_, rfl⟩
  · intro w hw
    fin_cases hw <;> rfl
  · exact List.chain'_cons.mpr ⟨by decide, List.chain'_singleton _⟩
  · intro x hx y hy
    simp at hx hy
    subst hx; subst hy; decide

theorem grayInv_step {L : ℕ} {g : List (List Bool)} (h : GrayInv L g) :
    GrayInv (L + 1) (gray_step g) := by
  obtain ⟨hne, hlen, hchain, hwrap, hhead⟩ := h
  have hl1ne : g.map (fun w => false :: w) ≠ [] := by simpa using hne
  have hl2ne : g.reverse.map (fun w => true :: w) ≠ [] := by simpa using hne
  refine ⟨?_, ?_, ?_, ?_, ?_⟩
  · intro hcontra
    exact hl1ne (List.append_eq_nil.mp hcontra).1
  · intro w hw
    rcases List.mem_append.mp hw with h1 | h2
    · obtain ⟨u, hu, rfl⟩ := List.mem_map.mp h1
      simp [hlen u hu]
    · obtain ⟨u, hu, rfl⟩ := List.mem_map.mp h2
      simp [hlen u (List.mem_reverse.mp hu)]
  · refine List.chain'_append.mpr ⟨?_, ?_, ?_⟩
    · exact (List.chain'_map _).mpr (hchain.imp (fun a b hab => by
        rwa [hamming_cons_same]))
    · refine (List.chain'_map _).mpr (List.chain'_reverse.mpr ?_)
      exact hchain.imp (fun a b hab => by
        show hamming (true :: b) (true :: a) = 1
        rw [hamming_cons_same, hamming_comm]
        exact hab)
    · intro x hx y hy
      rw [List.getLast?_map] at hx
      rw [List.head?_map, List.head?_reverse] at hy
      obtain ⟨u, hu, rfl⟩ := Option.map_eq_some'.mp (Option.mem_def.mp hx)
      obtain ⟨v, hv, rfl⟩ := Option.map_eq_some'.mp (Option.mem_def.mp hy)
      have huv : u = v := by rw [hu] at hv; exact (Option.some_inj.mp hv)
      subst huv
      exact hamming_cons_ne false true u (by decide)
  · intro x hx y hy
    unfold gray_step at hx hy
    rw [List.getLast?_append_of_ne_nil _ hl2ne, List.getLast?_map,
      List.getLast?_reverse] at hx
    rw [List.head?_append_of_ne_nil _ hl1ne, List.head?_map] at hy
    obtain ⟨u, hu, rfl⟩ := Option.map_eq_some'.mp (Option.mem_def.mp hx)
    obtain ⟨v, hv, rfl⟩ := Option.map_eq_some'.mp (Option.mem_def.mp hy)
    have huv : u = v := by rw [hu] at hv; exact (Option.some_inj.mp hv)
    subst huv
    exact hamming_cons_ne true false u (by decide)
  · unfold gray_step
    rw [List.head?_append_of_ne_nil _ hl1ne, List.head?_map, hhead]
    rfl

theorem grayInv_recurse :
    ∀ (n L : ℕ) (g : List (List Bool)), GrayInv L g →
      GrayInv (L + n) (gray_code_recurse g n) := by
  intro n
  induction n with
  | zero => intro L g h; exact h
  | succ m ih =>
    intro L g h
    have := ih (L + 1) (gray_step g) (grayInv_step h)
    rw [show L + 1 + m = L + (m + 1) from by omega] at this
    exact this

theorem grayInv_gray_code (rank : ℤ) :
    GrayInv (1 + (rank - 1).toNat) (gray_code rank) :=
  grayInv_recurse (rank - 1).toNat 1 [[false], [true]] grayInv_base

/-! ### Length of the generated code -/

theorem gray_step_length (g : List (List Bool)) :
    (gray_step g).length = 2 * g.length := by
  simp [gray_step]; omega

theorem gray_code_recurse_length :
    ∀ (n : ℕ) (g : List (List Bool)),
      (gray_code_recurse g n).length = 2 ^ n * g.length := by
  intro n
  induction n with
  | zero => intro g; simp [gray_code_recurse]
  | succ m ih =>
    intro g
    show (gray_code_recurse (gray_step g) m).length = 2 ^ (m + 1) * g.length
    rw [ih (gray_step g), gray_step_length, pow_succ]
    ring

theorem gray_code_length_int (rank : ℤ) :
    (gray_code rank).length = 2 ^ ((rank - 1).toNat + 1) := by
  unfold gray_code
  rw [gray_code_recurse_length]
  simp [pow_succ]

theorem gray_code_length (r : ℕ) (hr : 1 ≤ r) : (gray_code (r : ℤ)).length = 2 ^ r := by
  rw [gray_code_length_int]
  congr 1
  rw [show ((r : ℤ) - 1) = ((r : ℤ) - ((1 : ℕ) : ℤ)) from by norm_num, Int.toNat_sub r 1]
  omega

/-! ### Cyclically adjacent Gray code words differ in exactly one bit -/

theorem grayInv_cyclic {L : ℕ} {g : List (List Bool)} (h : GrayInv L g) :
    ∀ i < g.length,
      hamming (g.getD i []) (g.getD ((i + 1) % g.length) []) = 1 := by
  obtain ⟨hne, -, hchain, hwrap, -⟩ := h
  intro i hi
  by_cases hlt : i + 1 < g.length
  · rw [Nat.mod_eq_of_lt hlt]
    have hstep := List.chain'_iff_get.mp hchain i (by omega)
    rw [List.getD_eq_getElem?_getD, List.getElem?_eq_getElem hi,
      List.getD_eq_getElem?_getD, List.getElem?_eq_getElem hlt]
    simpa using hstep
  · have hieq : i + 1 = g.length := by omega
    rw [hieq, Nat.mod_self]
    have hxlast : g.getLast? = some (g.getD i []) := by
      rw [List.getLast?_eq_getElem? g, show g.length - 1 = i from by omega,
        List.getD_eq_getElem?_getD, List.getElem?_eq_getElem hi]
      simp
    have hyhead : g.head? = some (g.getD 0 []) := by
      rw [List.head?_eq_getElem? g, List.getD_eq_getElem?_getD,
        List.getElem?_eq_getElem (show 0 < g.length from by omega)]
      simp
    exact hwrap _ (Option.mem_def.mpr hxlast) _ (Option.mem_def.mpr hyhead)

theorem gray_code_levels (r : ℕ) : 1 + ((r : ℤ) - 1).toNat = max r 1 := by
  rw [show ((r : ℤ) - 1) = ((r : ℤ) - ((1 : ℕ) : ℤ)) from by norm_num,
    Int.toNat_sub r 1]
  omega

theorem grayInv_gray_code_nat (r : ℕ) : GrayInv (max r 1) (gray_code (r : ℤ)) := by
  have h := grayInv_gray_code (r : ℤ)
  rwa [gray_code_levels r] at h

/-- Claim C5 (amended): for every rank r ≥ 0 the generated Gray code has
length 2^(max r 1) — that is, 2^r for r ≥ 1 but 2 (not 2^0 = 1) at r = 0;
every cyclically adjacent pair of entries, including the wraparound pair,
differs in exactly one bit position; the code of rank 0 has length 2; and
the first element is the all-zeros word of bit-length max r 1 (so of
bit-length r for r ≥ 1, but of bit-length 1 at rank 0). -/
theorem C5_gray_code_properties (r : ℕ) :
    (gray_code (r : ℤ)).length = 2 ^ max r 1 ∧
    (gray_code (0 : ℤ)).length = 2 ∧
    (∀ i < (gray_code (r : ℤ)).length,
      hamming ((gray_code (r : ℤ)).getD i [])
        ((gray_code (r : ℤ)).getD ((i + 1) % (gray_code (r : ℤ)).length) []) = 1) ∧
    (gray_code (r : ℤ)).head? = some (List.replicate (max r 1) false) := by
  refine ⟨?_, by decide, ?_, ?_⟩
  · rw [gray_code_length_int, show ((r : ℤ) - 1).toNat + 1 = 1 + ((r : ℤ) - 1).toNat
      from by omega, gray_code_levels r]
  · exact grayInv_cyclic (grayInv_gray_code_nat r)
  · exact (grayInv_gray_code_nat r).2.2.2.2

/-- Claim C5 witness: the theorem applied at rank 2 and the wraparound
index i = 3, with the bound discharged concretely. -/
theorem C5_gray_code_properties_witness :
    hamming ((gray_code ((2 : ℕ) : ℤ)).getD 3 [])
      ((gray_code ((2 : ℕ) : ℤ)).getD ((3 + 1) % (gray_code ((2 : ℕ) : ℤ)).length) [])
      = 1 :=
  (C5_gray_code_properties 2).2.2.1 3 (by decide)

/-- Claim C5 counterexample: the claim asserts length 2^r for every r ≥ 0,
but the code of rank 0 has length 2, not 2^0 = 1. -/
theorem C5_counterexample : ¬ ((gray_code (0 : ℤ)).length = 2 ^ (0 : ℕ)) := by
  decide

/-- Claim C9 (amended): the Gray code generator is a total pure function
with no failure modes at all: it does not reject negative ranks.  For every
integer rank, including every negative one, the call succeeds and returns a
non-empty code of length 2^((rank - 1).toNat + 1); every rank ≤ 1 (so in
particular every negative rank) yields the two-element base code. -/
theorem C9_gray_code_total (rank : ℤ) :
    (gray_code rank).length = 2 ^ ((rank - 1).toNat + 1) ∧
    gray_code rank ≠ [] ∧
    (rank ≤ 1 → gray_code rank = [[false], [true]]) := by
  refine ⟨gray_code_length_int rank, (grayInv_gray_code rank).1, fun h => ?_⟩
  have : (rank - 1).toNat = 0 := by omega
  unfold gray_code
  rw [this]
  rfl

/-- Claim C9 witness: at the concrete rank -1 the theorem instantiates to a
closed statement, with the hypothesis -1 ≤ 1 discharged concretely. -/
theorem C9_gray_code_total_witness :
    (gray_code (-1 : ℤ)).length = 2 ^ (((-1 : ℤ) - 1).toNat + 1) ∧
    gray_code (-1 : ℤ) ≠ [] ∧
    gray_code (-1 : ℤ) = [[false], [true]] :=
  ⟨(C9_gray_code_total (-1)).1, (C9_gray_code_total (-1)).2.1,
    (C9_gray_code_total (-1)).2.2 (by norm_num)⟩

/-- Claim C9 counterexample: the claim asserts that every negative rank is
rejected, but the source never rejects: at rank -1 the recursion simply
performs no step and the call returns the two-element base code. -/
theorem C9_counterexample : gray_code (-1 : ℤ) = [[false], [true]] := by
  decide

/-! ### Claim C2: the theta transformation -/

/-- Claim C2 counterexample: the claim states `M[i][j] = entry(j+1, i+1)`
for 0-based `i`, `j`, but the source fills `M_trans[i, j] =
_matrix_M_entry(j, i)` with the 0-based loop indices passed unshifted.  At
the concrete input `alpha = [1, 0]` the source computes `[1/2, 1/2]` while
the claimed formula gives `[-1/2, -1/2]`. -/
theorem C2_counterexample :
    compute_theta [(1 : ℝ), 0] ≠ compute_theta_claim [(1 : ℝ), 0] := by
  have e00 : matrix_M_entry 0 0 = 1 := by decide
  have e10 : matrix_M_entry 1 0 = 1 := by decide
  have e01 : matrix_M_entry 0 1 = 1 := by decide
  have e11 : matrix_M_entry 1 1 = -1 := by decide
  have s11 : matrix_M_entry_spec 1 1 = -1 := by rw [← matrix_M_entry_eq_spec]; decide
  have s21 : matrix_M_entry_spec 2 1 = 1 := by rw [← matrix_M_entry_eq_spec]; decide
  have s12 : matrix_M_entry_spec 1 2 = -1 := by rw [← matrix_M_entry_eq_spec]; decide
  have s22 : matrix_M_entry_spec 2 2 = -1 := by rw [← matrix_M_entry_eq_spec]; decide
  have hl2 : Nat.log2 2 = 1 := @Nat.log2_two_pow 1
  have h1 : compute_theta [(1 : ℝ), 0] = [1 / 2, 1 / 2] := by
    simp [compute_theta, List.range_succ, e00, e10, e01, e11, hl2]
  have h2 : compute_theta_claim [(1 : ℝ), 0] = [-1 / 2, -1 / 2] := by
    simp [compute_theta_claim, List.range_succ, s11, s21, s12, s22]
  rw [h1, h2]
  intro hcontra
  simp only [List.cons.injEq] at hcontra
  norm_num at hcontra

/-- Claim C2 (amended): for every AlphaVector of length L = 2^r, the
computed ThetaVector equals `(M @ alpha) / L` where `M[i][j] = entry(j, i)`
— the 0-based loop indices are passed to the entry formula unshifted, the
argument order being transposed — with `entry(row, col) =
(-1)^popcount(row AND ((col >> 1) XOR col))`; every entry of `M` is +1 or
-1. -/
theorem C2_compute_theta_amended (alpha : List ℝ) (r : ℕ)
    (h : alpha.length = 2 ^ r) :
    compute_theta alpha = compute_theta_amended alpha ∧
    ∀ row col, matrix_M_entry_spec row col = 1 ∨ matrix_M_entry_spec row col = -1 := by
  constructor
  · have hlog : Nat.log2 alpha.length = r := by rw [h]; exact @Nat.log2_two_pow r
    simp only [compute_theta, compute_theta_amended]
    apply List.map_congr_left
    intro i _
    rw [hlog, h]
    have hsum : (List.range alpha.length).map
          (fun j => (matrix_M_entry j i : ℝ) * alpha.getD j 0)
        = (List.range alpha.length).map
          (fun j => (matrix_M_entry_spec j i : ℝ) * alpha.getD j 0) := by
      apply List.map_congr_left
      intro j _
      rw [matrix_M_entry_eq_spec]
    rw [h] at hsum
    rw [hsum]
    push_cast
    ring
  · exact fun row col => matrix_M_entry_spec_pm_one row col

/-- Claim C2 witness: the amended theorem applied at the concrete input
`alpha = [1, 0]` (length 2 = 2^1). -/
theorem C2_compute_theta_amended_witness :
    compute_theta [(1 : ℝ), 0] = compute_theta_amended [(1 : ℝ), 0] ∧
    ∀ row col, matrix_M_entry_spec row col = 1 ∨ matrix_M_entry_spec row col = -1 :=
  C2_compute_theta_amended [(1 : ℝ), 0] 1 (by simp)

/-! ### Claim C3: the uniform-rotation expander -/

theorem getD_range_map {α : Type} (f : ℕ → α) (d : α) (n i : ℕ) (h : i < n) :
    ((List.range n).map f).getD i d = f i := by
  simp [List.getD_eq_getElem?_getD, List.getElem?_map, List.getElem?_range h]

/-- Claim C3 witness helper is not needed; the claim theorem itself: with a
non-empty list of r control wires and an AlphaVector of length 2^r, the
expander emits, for each i in 0 .. 2^r - 1 in order, a rotation of the given
gate kind with angle theta[i] on the target wire exactly when theta[i] ≠ 0,
followed unconditionally by a bit-flip controlled by
controlWires[controlIndices[i]] (Gray-code-derived control indices); in
particular exactly 2^r bit-flips are emitted, including the trailing one.
With an empty control list it emits the single rotation with theta[0] only
when theta[0] ≠ 0 and nothing otherwise. -/
theorem C3_uniform_rotation_expander (gate : Gate) (alpha : List ℝ)
    (control_wires : List ℕ) (target_wire : ℕ) (r : ℕ)
    (hr : 1 ≤ r) (hcw : control_wires.length = r) (_ha : alpha.length = 2 ^ r) :
    uniform_rotation_dagger gate alpha control_wires target_wire =
      (List.range (2 ^ r)).flatMap (fun i =>
        (if (compute_theta alpha).getD i 0 ≠ 0 then
          [Operation.rot gate ((compute_theta alpha).getD i 0) target_wire] else [])
          ++ [Operation.CNOT
                (control_wires.getD (control_index_spec r i) 0) target_wire]) ∧
    List.countP Operation.isCNOT
      (uniform_rotation_dagger gate alpha control_wires target_wire) = 2 ^ r ∧
    (∀ (gate2 : Gate) (alpha2 : List ℝ) (t2 : ℕ),
      uniform_rotation_dagger gate2 alpha2 [] t2 =
        if (compute_theta alpha2).getD 0 0 ≠ 0 then
          [Operation.rot gate2 ((compute_theta alpha2).getD 0 0) t2] else []) := by
  have hlen : (gray_code ((control_wires.length : ℕ) : ℤ)).length = 2 ^ r := by
    rw [hcw]; exact gray_code_length r hr
  have hmain : uniform_rotation_dagger gate alpha control_wires target_wire =
      (List.range (2 ^ r)).flatMap (fun i =>
        (if (compute_theta alpha).getD i 0 ≠ 0 then
          [Operation.rot gate ((compute_theta alpha).getD i 0) target_wire] else [])
          ++ [Operation.CNOT
                (control_wires.getD (control_index_spec r i) 0) target_wire]) := by
    show (if control_wires.length = 0 then _ else _) = _
    rw [if_neg (by omega : ¬ control_wires.length = 0)]
    show ((List.range (gray_code ((control_wires.length : ℕ) : ℤ)).length).map _).flatten = _
    rw [show ((List.range (2 ^ r)).flatMap _ : List Operation)
        = ((List.range (2 ^ r)).map _).flatten from rfl]
    rw [hlen]
    congr 1
    apply List.map_congr_left
    intro i hi
    have hilt : i < 2 ^ r := List.mem_range.mp hi
    congr 2
    rw [getD_range_map _ _ _ _ hilt]
    unfold control_index_spec
    rw [hcw]
  refine ⟨hmain, ?_, ?_⟩
  · rw [hmain]
    rw [show ((List.range (2 ^ r)).flatMap _ : List Operation)
        = ((List.range (2 ^ r)).map _).flatten from rfl]
    rw [List.countP_flatten, List.map_map]
    have hone : (List.range (2 ^ r)).map (List.countP Operation.isCNOT ∘ fun i =>
        (if (compute_theta alpha).getD i 0 ≠ 0 then
          [Operation.rot gate ((compute_theta alpha).getD i 0) target_wire] else [])
          ++ [Operation.CNOT
                (control_wires.getD (control_index_spec r i) 0) target_wire])
        = (List.range (2 ^ r)).map (fun _ => 1) := by
      apply List.map_congr_left
      intro i _
      show List.countP _ (_ ++ _) = 1
      rw [List.countP_append]
      by_cases hth : (compute_theta alpha).getD i 0 ≠ 0
      · rw [if_pos hth]; rfl
      · rw [if_neg hth]; rfl
    rw [hone, List.map_const', List.sum_replicate]
    simp
  · intro gate2 alpha2 t2
    simp only [uniform_rotation_dagger, List.length_nil, reduceIte]

/-- Claim C3 witness: the theorem applied at the concrete input gate = RY,
alpha = [2, 0] (theta = [1, 1]), one control wire 5, target wire 7, r = 1,
with all hypotheses discharged concretely. -/
theorem C3_uniform_rotation_expander_witness :
    uniform_rotation_dagger Gate.RY [(2 : ℝ), 0] [5] 7 =
      (List.range (2 ^ 1)).flatMap (fun i =>
        (if (compute_theta [(2 : ℝ), 0]).getD i 0 ≠ 0 then
          [Operation.rot Gate.RY ((compute_theta [(2 : ℝ), 0]).getD i 0) 7] else [])
          ++ [Operation.CNOT (([5] : List ℕ).getD (control_index_spec 1 i) 0) 7]) ∧
    List.countP Operation.isCNOT (uniform_rotation_dagger Gate.RY [(2 : ℝ), 0] [5] 7)
      = 2 ^ 1 ∧
    (∀ (gate2 : Gate) (alpha2 : List ℝ) (t2 : ℕ),
      uniform_rotation_dagger gate2 alpha2 [] t2 =
        if (compute_theta alpha2).getD 0 0 ≠ 0 then
          [Operation.rot gate2 ((compute_theta alpha2).getD 0 0) t2] else []) :=
  C3_uniform_rotation_expander Gate.RY [(2 : ℝ), 0] [5] 7 1
    (by norm_num) (by simp) (by simp)

/-! ### Claim C4: the alpha_y angle formula -/

/-- Claim C4: for n ≥ 1, 1 ≤ k ≤ n and a real amplitude vector of length
2^n, `alpha_y(a, n, k)` has length 2^(n-k), its entry j equals
`2 * arcsin(sqrt(numerator[j] / denominator[j]))` with
`numerator[j] = Σ_{l < 2^(k-1)} a[(2j+1)·2^(k-1) + l]^2` and
`denominator[j] = Σ_{l < 2^k} a[j·2^k + l]^2`, and whenever the denominator
is 0 the entry equals 0 (the division is masked). -/
theorem C4_get_alpha_y (a : List ℝ) (n k : ℕ) (_hn : 1 ≤ n) (_hk1 : 1 ≤ k)
    (_hkn : k ≤ n) (_ha : a.length = 2 ^ n) :
    (get_alpha_y a n k).length = 2 ^ (n - k) ∧
    ∀ j, j < 2 ^ (n - k) →
      (((List.range (2 ^ k)).map (fun l => (a.getD (j * 2 ^ k + l) 0) ^ 2)).sum ≠ 0 →
        (get_alpha_y a n k).getD j 0 =
          2 * Real.arcsin (Real.sqrt
            (((List.range (2 ^ (k - 1))).map
                (fun l => (a.getD ((2 * j + 1) * 2 ^ (k - 1) + l) 0) ^ 2)).sum /
              ((List.range (2 ^ k)).map
                (fun l => (a.getD (j * 2 ^ k + l) 0) ^ 2)).sum))) ∧
      (((List.range (2 ^ k)).map (fun l => (a.getD (j * 2 ^ k + l) 0) ^ 2)).sum = 0 →
        (get_alpha_y a n k).getD j 0 = 0) := by
  constructor
  · simp [get_alpha_y]
  · intro j hj
    have hidx : 2 * (j + 1) - 1 = 2 * j + 1 := by omega
    have habs_num : ((List.range (2 ^ (k - 1))).map (fun l =>
          |a.getD ((2 * (j + 1) - 1) * 2 ^ (k - 1) + l) 0| ^ 2)).sum
        = ((List.range (2 ^ (k - 1))).map (fun l =>
          (a.getD ((2 * j + 1) * 2 ^ (k - 1) + l) 0) ^ 2)).sum := by
      rw [hidx]
      exact congrArg List.sum (List.map_congr_left (fun l _ => sq_abs _))
    have habs_den : ((List.range (2 ^ k)).map (fun l =>
          |a.getD (j * 2 ^ k + l) 0| ^ 2)).sum
        = ((List.range (2 ^ k)).map (fun l =>
          (a.getD (j * 2 ^ k + l) 0) ^ 2)).sum :=
      congrArg List.sum (List.map_congr_left (fun l _ => sq_abs _))
    have hbody : (get_alpha_y a n k).getD j 0 =
        2 * Real.arcsin (Real.sqrt
          (if ((List.range (2 ^ k)).map (fun l =>
                |a.getD (j * 2 ^ k + l) 0| ^ 2)).sum ≠ 0
           then ((List.range (2 ^ (k - 1))).map (fun l =>
                  |a.getD ((2 * (j + 1) - 1) * 2 ^ (k - 1) + l) 0| ^ 2)).sum
              / ((List.range (2 ^ k)).map (fun l =>
                  |a.getD (j * 2 ^ k + l) 0| ^ 2)).sum
           else 0)) := by
      unfold get_alpha_y
      exact getD_range_map _ _ _ _ hj
    rw [habs_num, habs_den] at hbody
    constructor
    · intro hden
      rw [hbody, if_pos hden]
    · intro hden
      rw [hbody, if_neg (by simpa using hden), Real.sqrt_zero, Real.arcsin_zero,
        mul_zero]

/-- Claim C4 witness: the theorem applied at a = [1, 0], n = 1, k = 1, with
all hypotheses discharged concretely. -/
theorem C4_get_alpha_y_witness :
    (get_alpha_y [(1 : ℝ), 0] 1 1).length = 2 ^ (1 - 1) ∧
    ∀ j, j < 2 ^ (1 - 1) →
      (((List.range (2 ^ 1)).map
          (fun l => (([(1 : ℝ), 0].getD (j * 2 ^ 1 + l) 0)) ^ 2)).sum ≠ 0 →
        (get_alpha_y [(1 : ℝ), 0] 1 1).getD j 0 =
          2 * Real.arcsin (Real.sqrt
            (((List.range (2 ^ (1 - 1))).map
                (fun l => (([(1 : ℝ), 0].getD ((2 * j + 1) * 2 ^ (1 - 1) + l) 0)) ^ 2)).sum /
              ((List.range (2 ^ 1)).map
                (fun l => (([(1 : ℝ), 0].getD (j * 2 ^ 1 + l) 0)) ^ 2)).sum))) ∧
      (((List.range (2 ^ 1)).map
          (fun l => (([(1 : ℝ), 0].getD (j * 2 ^ 1 + l) 0)) ^ 2)).sum = 0 →
        (get_alpha_y [(1 : ℝ), 0] 1 1).getD j 0 = 0) :=
  C4_get_alpha_y [(1 : ℝ), 0] 1 1 le_rfl le_rfl le_rfl (by simp)

/-! ### Claim C6: the alpha_z angle formula -/

/-- Claim C6: for n ≥ 1, 1 ≤ k ≤ n and a real phase vector of length 2^n,
`alpha_z(omega, n, k)` has length 2^(n-k) and its 0-based entry j-1, for j
in 1 .. 2^(n-k), equals the sum over l in 1 .. 2^(k-1) of
`(omega[(2j-1)·2^(k-1)+l-1] - omega[(2j-2)·2^(k-1)+l-1]) / 2^(k-1)`. -/
theorem C6_get_alpha_z (omega : List ℝ) (n k : ℕ) (_hn : 1 ≤ n) (_hk1 : 1 ≤ k)
    (_hkn : k ≤ n) (_hw : omega.length = 2 ^ n) :
    (get_alpha_z omega n k).length = 2 ^ (n - k) ∧
    ∀ j, 1 ≤ j → j ≤ 2 ^ (n - k) →
      (get_alpha_z omega n k).getD (j - 1) 0 =
        ((List.range (2 ^ (k - 1))).map (fun lm =>
          (omega.getD ((2 * j - 1) * 2 ^ (k - 1) + (lm + 1) - 1) 0
            - omega.getD ((2 * j - 2) * 2 ^ (k - 1) + (lm + 1) - 1) 0)
            / 2 ^ (k - 1))).sum := by
  constructor
  · simp [get_alpha_z]
  · intro j hj1 hj2
    have hlt : j - 1 < 2 ^ (n - k) := by omega
    have hbody : (get_alpha_z omega n k).getD (j - 1) 0 =
        ((List.range (2 ^ (k - 1))).map (fun lm =>
          (omega.getD ((2 * (j - 1 + 1) - 1) * 2 ^ (k - 1) + (lm + 1) - 1) 0
            - omega.getD ((2 * (j - 1 + 1) - 2) * 2 ^ (k - 1) + (lm + 1) - 1) 0)
            / 2 ^ (k - 1))).sum := by
      unfold get_alpha_z
      exact getD_range_map _ _ _ _ hlt
    rw [hbody, show j - 1 + 1 = j from by omega]

/-- Claim C6 witness: the theorem applied at omega = [0, 0], n = 1, k = 1,
j = 1, with all hypotheses discharged concretely. -/
theorem C6_get_alpha_z_witness :
    (get_alpha_z [(0 : ℝ), 0] 1 1).length = 2 ^ (1 - 1) ∧
    ∀ j, 1 ≤ j → j ≤ 2 ^ (1 - 1) →
      (get_alpha_z [(0 : ℝ), 0] 1 1).getD (j - 1) 0 =
        ((List.range (2 ^ (1 - 1))).map (fun lm =>
          (([(0 : ℝ), 0].getD ((2 * j - 1) * 2 ^ (1 - 1) + (lm + 1) - 1) 0)
            - ([(0 : ℝ), 0].getD ((2 * j - 2) * 2 ^ (1 - 1) + (lm + 1) - 1) 0))
            / 2 ^ (1 - 1))).sum :=
  C6_get_alpha_z [(0 : ℝ), 0] 1 1 le_rfl le_rfl le_rfl (by simp)

/-! ### Claim C10: alpha vector lengths and the driver guard -/

/-- Claim C10: both alpha_y and alpha_z return vectors of length exactly
2^(n-k), which is at least 1; in particular the driver's non-empty guard
`len(alpha_z_k) > 0` on the Z-cascade is satisfied for every k, and the
Y-cascade never receives an empty AlphaVector either. -/
theorem C10_alpha_lengths (a omega : List ℝ) (n k : ℕ) :
    (get_alpha_y a n k).length = 2 ^ (n - k) ∧
    (get_alpha_z omega n k).length = 2 ^ (n - k) ∧
    0 < (get_alpha_z omega n k).length ∧
    0 < (get_alpha_y a n k).length := by
  have hy : (get_alpha_y a n k).length = 2 ^ (n - k) := by simp [get_alpha_y]
  have hz : (get_alpha_z omega n k).length = 2 ^ (n - k) := by simp [get_alpha_z]
  have hpos : 0 < 2 ^ (n - k) := pow_pos (by norm_num) (n - k)
  exact ⟨hy, hz, hz ▸ hpos, hy ▸ hpos⟩

/-! ### Claim C7: driver validation -/

/-- Claim C7 counterexample: the claim asserts a normalization error is
raised whenever the squared-magnitude sum deviates from 1 by more than the
absolute tolerance 1e-3; but the source calls `np.isclose(norm, 1.0,
atol=1e-3)` which keeps numpy's default relative tolerance `rtol=1e-5`, so
the effective tolerance is 1e-3 + 1e-5.  The concrete input
`[sqrt(200201/200000), 0]` on one wire has squared norm `200201/200000`,
deviating from 1 by `201/200000 = 1.005e-3 > 1e-3`, yet the driver accepts
it and emits an operation sequence. -/
theorem C7_counterexample :
    (1e-3 : ℝ) < |(([((Real.sqrt (200201 / 200000) : ℝ) : ℂ), 0].map
        (fun s => Complex.abs s ^ 2)).sum) - 1| ∧
    (MottonenStatePreparation [((Real.sqrt (200201 / 200000) : ℝ) : ℂ), 0] [0]).isOk
      = true := by
  have hnorm : (([((Real.sqrt (200201 / 200000) : ℝ) : ℂ), 0].map
      (fun s => Complex.abs s ^ 2)).sum) = 200201 / 200000 := by
    simp only [List.map_cons, List.map_nil, List.sum_cons, List.sum_nil]
    rw [Complex.abs_ofReal, abs_of_nonneg (Real.sqrt_nonneg _), Real.sq_sqrt
      (by norm_num : (0 : ℝ) ≤ 200201 / 200000), map_zero]
    norm_num
  have hdev : (200201 : ℝ) / 200000 - 1 = 201 / 200000 := by norm_num
  constructor
  · rw [hnorm, hdev, abs_of_nonneg (by norm_num : (0 : ℝ) ≤ 201 / 200000)]
    norm_num
  · simp only [MottonenStatePreparation]
    rw [if_neg (by simp), hnorm,
      if_neg (not_not_intro (by
        rw [hdev, abs_of_nonneg (by norm_num : (0 : ℝ) ≤ 201 / 200000)]
        norm_num))]
    rfl

/-- Claim C7 (amended): the driver raises a shape error whenever the input
length differs from 2^N for the declared wire count N, and raises a
normalization error whenever the squared-magnitude sum deviates from 1 by
more than 1e-3 + 1e-5 (the `np.isclose` tolerance `atol + rtol * |1|` with
numpy's default `rtol = 1e-5`), in particular for input [1, 1] whose
squared sum is 2; in either failure case the call returns an error and no
Operation sequence is produced. -/
theorem C7_driver_validation :
    (∀ (v : List ℂ) (w : List ℕ), v.length ≠ 2 ^ w.length →
      MottonenStatePreparation v w
        = Except.error "state_vector must be of shape (2 ** len(wires),)") ∧
    (∀ (v : List ℂ) (w : List ℕ), v.length = 2 ^ w.length →
      ¬ (|((v.map (fun s => Complex.abs s ^ 2)).sum) - 1| ≤ 1e-3 + 1e-5 * |(1 : ℝ)|) →
      MottonenStatePreparation v w
        = Except.error "state_vector has to be of length 1.0") ∧
    MottonenStatePreparation [(1 : ℂ), 1] [0]
      = Except.error "state_vector has to be of length 1.0" ∧
    (∀ (v : List ℂ) (w : List ℕ) (ops : List Operation),
      (v.length ≠ 2 ^ w.length ∨
        ¬ (|((v.map (fun s => Complex.abs s ^ 2)).sum) - 1| ≤ 1e-3 + 1e-5 * |(1 : ℝ)|)) →
      MottonenStatePreparation v w ≠ Except.ok ops) := by
  have hshape : ∀ (v : List ℂ) (w : List ℕ), v.length ≠ 2 ^ w.length →
      MottonenStatePreparation v w
        = Except.error "state_vector must be of shape (2 ** len(wires),)" := by
    intro v w h
    simp only [MottonenStatePreparation]
    rw [if_pos h]
  have hnorm : ∀ (v : List ℂ) (w : List ℕ), v.length = 2 ^ w.length →
      ¬ (|((v.map (fun s => Complex.abs s ^ 2)).sum) - 1| ≤ 1e-3 + 1e-5 * |(1 : ℝ)|) →
      MottonenStatePreparation v w
        = Except.error "state_vector has to be of length 1.0" := by
    intro v w h hn
    simp only [MottonenStatePreparation]
    rw [if_neg (not_not_intro h), if_pos hn]
  have hconc : MottonenStatePreparation [(1 : ℂ), 1] [0]
      = Except.error "state_vector has to be of length 1.0" := by
    apply hnorm
    · simp
    · have : (([(1 : ℂ), 1].map (fun s => Complex.abs s ^ 2)).sum) = 2 := by
        simp only [List.map_cons, List.map_nil, List.sum_cons, List.sum_nil,
          map_one, one_pow]
        norm_num
      rw [this]
      norm_num
  refine ⟨hshape, hnorm, hconc, ?_⟩
  intro v w ops hcase
  rcases hcase with h | h
  · rw [hshape v w h]
    simp
  · by_cases hs : v.length = 2 ^ w.length
    · rw [hnorm v w hs h]
      simp
    · rw [hshape v w hs]
      simp

/-- Claim C7 witness: the shape branch of the theorem applied at the
concrete input of length 1 declared on one wire (expected length 2), with
the hypothesis discharged concretely. -/
theorem C7_driver_validation_witness :
    MottonenStatePreparation [(1 : ℂ)] [0]
      = Except.error "state_vector must be of shape (2 ** len(wires),)" :=
  C7_driver_validation.1 [(1 : ℂ)] [0] (by simp)

/-! ### Claim C8: concrete evaluation on the uniform two-qubit state -/

theorem two_arcsin_sqrt_half : 2 * Real.arcsin (Real.sqrt (1 / 2)) = Real.pi / 2 := by
  have h1 : Real.sqrt (1 / 2) = Real.sqrt 2 / 2 := by
    rw [show (1 / 2 : ℝ) = (Real.sqrt 2 / 2) ^ 2 by
          rw [div_pow, Real.sq_sqrt] <;> norm_num]
    exact Real.sqrt_sq (by positivity)
  have h2 : Real.arcsin (Real.sin (Real.pi / 4)) = Real.pi / 4 :=
    Real.arcsin_sin (by linarith [Real.pi_pos]) (by linarith [Real.pi_pos])
  rw [h1, ← Real.sin_pi_div_four, h2]
  ring

theorem alpha_y_uniform_k2 :
    get_alpha_y [(1 / 2 : ℝ), 1 / 2, 1 / 2, 1 / 2] 2 2 = [Real.pi / 2] := by
  rw [← two_arcsin_sqrt_half]
  norm_num [get_alpha_y, List.range_succ]

theorem alpha_y_uniform_k1 :
    get_alpha_y [(1 / 2 : ℝ), 1 / 2, 1 / 2, 1 / 2] 2 1
      = [Real.pi / 2, Real.pi / 2] := by
  rw [← two_arcsin_sqrt_half]
  norm_num [get_alpha_y, List.range_succ]

theorem alpha_z_zeros_k2 : get_alpha_z [(0 : ℝ), 0, 0, 0] 2 2 = [0] := by
  norm_num [get_alpha_z, List.range_succ]

theorem alpha_z_zeros_k1 : get_alpha_z [(0 : ℝ), 0, 0, 0] 2 1 = [0, 0] := by
  norm_num [get_alpha_z, List.range_succ]

theorem theta_singleton (x : ℝ) : compute_theta [x] = [x] := by
  have e00 : matrix_M_entry 0 0 = 1 := by decide
  have hl : Nat.log2 1 = 0 := @Nat.log2_two_pow 0
  norm_num [compute_theta, List.range_succ, e00, hl]

theorem theta_k1_uniform :
    compute_theta [Real.pi / 2, Real.pi / 2] = [Real.pi / 2, 0] := by
  have e00 : matrix_M_entry 0 0 = 1 := by decide
  have e10 : matrix_M_entry 1 0 = 1 := by decide
  have e01 : matrix_M_entry 0 1 = 1 := by decide
  have e11 : matrix_M_entry 1 1 = -1 := by decide
  have hl : Nat.log2 2 = 1 := @Nat.log2_two_pow 1
  norm_num [compute_theta, List.range_succ, e00, e10, e01, e11, hl]

theorem theta_zeros_pair : compute_theta [(0 : ℝ), 0] = [0, 0] := by
  have e00 : matrix_M_entry 0 0 = 1 := by decide
  have e10 : matrix_M_entry 1 0 = 1 := by decide
  have e01 : matrix_M_entry 0 1 = 1 := by decide
  have e11 : matrix_M_entry 1 1 = -1 := by decide
  have hl : Nat.log2 2 = 1 := @Nat.log2_two_pow 1
  norm_num [compute_theta, List.range_succ, e00, e10, e01, e11, hl]

theorem urd_no_controls (gate : Gate) (alpha : List ℝ) (t : ℕ) :
    uniform_rotation_dagger gate alpha [] t =
      if (compute_theta alpha).getD 0 0 ≠ 0 then
        [Operation.rot gate ((compute_theta alpha).getD 0 0) t] else [] := by
  simp only [uniform_rotation_dagger, List.length_nil, reduceIte]

theorem urd_one_control (gate : Gate) (alpha : List ℝ) (c t : ℕ) :
    uniform_rotation_dagger gate alpha [c] t =
      (if (compute_theta alpha).getD 0 0 ≠ 0 then
        [Operation.rot gate ((compute_theta alpha).getD 0 0) t] else [])
        ++ [Operation.CNOT c t]
        ++ (if (compute_theta alpha).getD 1 0 ≠ 0 then
          [Operation.rot gate ((compute_theta alpha).getD 1 0) t] else [])
        ++ [Operation.CNOT c t] := by
  have hg : gray_code ((1 : ℕ) : ℤ) = [[false], [true]] := by decide
  have hb0 : binToNat [false] = 0 := rfl
  have hb1 : binToNat [true] = 1 := rfl
  have hlog1 : Nat.log2 1 = 0 := @Nat.log2_two_pow 0
  simp only [uniform_rotation_dagger, List.length_cons, List.length_nil]
  rw [if_neg (by norm_num : ¬ (0 + 1 = 0))]
  simp only [Nat.cast_ofNat, Nat.cast_one, hg]
  norm_num [List.range_succ, hb0, hb1, hlog1]

theorem urd_RY_uniform_k2 :
    uniform_rotation_dagger Gate.RY [Real.pi / 2] [] 0
      = [Operation.rot Gate.RY (Real.pi / 2) 0] := by
  rw [urd_no_controls, theta_singleton]
  simp only [List.getD_cons_zero]
  rw [if_pos (by positivity : Real.pi / 2 ≠ 0)]

theorem urd_RZ_zero_k2 : uniform_rotation_dagger Gate.RZ [(0 : ℝ)] [] 0 = [] := by
  rw [urd_no_controls, theta_singleton]
  simp

theorem urd_RY_uniform_k1 :
    uniform_rotation_dagger Gate.RY [Real.pi / 2, Real.pi / 2] [0] 1 =
      [Operation.rot Gate.RY (Real.pi / 2) 1, Operation.CNOT 0 1,
        Operation.CNOT 0 1] := by
  rw [urd_one_control, theta_k1_uniform]
  simp only [List.getD_cons_zero, List.getD_cons_succ]
  rw [if_pos (by positivity : Real.pi / 2 ≠ 0), if_neg (by norm_num)]
  simp

theorem urd_RZ_zeros_k1 :
    uniform_rotation_dagger Gate.RZ [(0 : ℝ), 0] [0] 1
      = [Operation.CNOT 0 1, Operation.CNOT 0 1] := by
  rw [urd_one_control, theta_zeros_pair]
  simp

/-- Claim C8 counterexample: the claim asserts that at k = 1 all rotation
angles are 0 and every k = 1 rotation Operation is elided; but for the
uniform amplitude vector the k = 1 theta vector is [π/2, 0], whose first
entry is the nonzero angle π/2, so a k = 1 rotation is emitted. -/
theorem C8_counterexample :
    (compute_theta (get_alpha_y [(1 / 2 : ℝ), 1 / 2, 1 / 2, 1 / 2] 2 1)).getD 0 0
        = Real.pi / 2 ∧
    (Real.pi / 2 : ℝ) ≠ 0 := by
  constructor
  · rw [alpha_y_uniform_k1, theta_k1_uniform]
    simp
  · positivity

/-- Claim C8 (amended): for N = 2 and input [1/2, 1/2, 1/2, 1/2] the driver
emits only Y-rotations and bit-flips (no Z-rotations): the k = 2 step emits
the single rotation RY(π/2); the k = 1 theta vector is [π/2, 0], so the
first k = 1 rotation RY(π/2) is emitted and the second elided while both
k = 1 bit-flips are emitted with control 0 following the Gray-code-derived
control index sequence; the Z-cascade contributes no rotation (all its
thetas are 0) but does contribute its two unconditional k = 1 bit-flips. -/
theorem C8_uniform_state_decomposition :
    MottonenStatePreparation
        [((1 / 2 : ℝ) : ℂ), ((1 / 2 : ℝ) : ℂ), ((1 / 2 : ℝ) : ℂ), ((1 / 2 : ℝ) : ℂ)]
        [0, 1]
      = Except.ok
        [Operation.rot Gate.RY (Real.pi / 2) 0,
          Operation.rot Gate.RY (Real.pi / 2) 1,
          Operation.CNOT 0 1, Operation.CNOT 0 1,
          Operation.CNOT 0 1, Operation.CNOT 0 1] ∧
    compute_theta (get_alpha_y [(1 / 2 : ℝ), 1 / 2, 1 / 2, 1 / 2] 2 2)
      = [Real.pi / 2] ∧
    compute_theta (get_alpha_y [(1 / 2 : ℝ), 1 / 2, 1 / 2, 1 / 2] 2 1)
      = [Real.pi / 2, 0] := by
  refine ⟨?_, by
    rw [alpha_y_uniform_k2, theta_singleton], by
    rw [alpha_y_uniform_k1, theta_k1_uniform]⟩
  have habs : Complex.abs ((1 / 2 : ℝ) : ℂ) = (1 / 2 : ℝ) := by
    rw [Complex.abs_ofReal, abs_of_nonneg (by norm_num : (0 : ℝ) ≤ 1 / 2)]
  have harg : Complex.arg ((1 / 2 : ℝ) : ℂ) = 0 :=
    Complex.arg_ofReal_of_nonneg (by norm_num)
  have hnorm : (([((1 / 2 : ℝ) : ℂ), ((1 / 2 : ℝ) : ℂ), ((1 / 2 : ℝ) : ℂ),
      ((1 / 2 : ℝ) : ℂ)].map (fun s => Complex.abs s ^ 2)).sum) = 1 := by
    simp only [List.map_cons, List.map_nil, List.sum_cons, List.sum_nil, habs]
    norm_num
  simp only [MottonenStatePreparation]
  rw [if_neg (by simp), hnorm, if_neg (not_not_intro (by norm_num))]
  simp only [List.length_cons, List.length_nil, List.map_cons, List.map_nil,
    habs, harg]
  norm_num [List.range_succ, alpha_y_uniform_k2, alpha_y_uniform_k1,
    alpha_z_zeros_k2, alpha_z_zeros_k1, urd_RY_uniform_k2, urd_RY_uniform_k1,
    urd_RZ_zero_k2, urd_RZ_zeros_k1]

/-! ### Bit-parity toolkit, towards the correctness theorem C1 -/

theorem pc_zero : popcount_spec 0 = 0 := by simp [popcount_spec]

theorem pc_two_mul (n : ℕ) : popcount_spec (2 * n) = popcount_spec n := by
  rcases Nat.eq_zero_or_pos n with h | h
  · subst h; rfl
  · unfold popcount_spec
    rw [Nat.digits_def' (by norm_num : 1 < 2) (by omega : 0 < 2 * n),
      Nat.mul_mod_right, Nat.mul_div_cancel_left n (by norm_num : 0 < 2),
      List.count_cons]
    simp

theorem pc_two_mul_add_one (n : ℕ) : popcount_spec (2 * n + 1) = popcount_spec n + 1 := by
  unfold popcount_spec
  rw [Nat.digits_def' (by norm_num : 1 < 2) (by omega : 0 < 2 * n + 1),
    List.count_cons]
  have h1 : (2 * n + 1) % 2 = 1 := by omega
  have h2 : (2 * n + 1) / 2 = n := by omega
  rw [h1, h2]
  simp

theorem pc_bit (b : Bool) (n : ℕ) :
    popcount_spec (Nat.bit b n) = b.toNat + popcount_spec n := by
  rw [Nat.bit_val]
  cases b
  · simp [pc_two_mul]
  · simp only [Bool.toNat_true]
    rw [pc_two_mul_add_one]
    omega

theorem pc_two_pow (i : ℕ) : popcount_spec (2 ^ i) = 1 := by
  induction i with
  | zero =>
    unfold popcount_spec
    rw [show (2 : ℕ) ^ 0 = 1 from rfl, Nat.digits_def' (by norm_num : 1 < 2) one_pos]
    simp
  | succ m ih =>
    rw [pow_succ, Nat.mul_comm, pc_two_mul, ih]

theorem negOnePow_mod2 (a b : ℕ) (h : a % 2 = b % 2) : ((-1 : ℝ)) ^ a = (-1) ^ b := by
  rcases Nat.even_or_odd a with ha | ha
  · have hb : Even b := by
      rcases Nat.even_or_odd b with hb | hb
      · exact hb
      · exfalso
        rw [Nat.even_iff] at ha
        rw [Nat.odd_iff] at hb
        omega
    rw [Even.neg_one_pow ha, Even.neg_one_pow hb]
  · have hb : Odd b := by
      rcases Nat.even_or_odd b with hb | hb
      · exfalso
        rw [Nat.odd_iff] at ha
        rw [Nat.even_iff] at hb
        omega
      · exact hb
    rw [Odd.neg_one_pow ha, Odd.neg_one_pow hb]

theorem pc_xor_mod2 (x : ℕ) : ∀ y : ℕ,
    popcount_spec (x ^^^ y) % 2 = (popcount_spec x + popcount_spec y) % 2 := by
  induction x using Nat.binaryRec with
  | z => intro y; rw [Nat.zero_xor, pc_zero]; omega
  | f b n ih =>
    intro y
    cases y using Nat.bitCasesOn with
    | h c m =>
      rw [Nat.xor_bit, pc_bit, pc_bit, pc_bit]
      have := ih m
      cases b <;> cases c <;> simp at * <;> omega

theorem negOnePow_pc_xor (x y : ℕ) :
    ((-1 : ℝ)) ^ popcount_spec (x ^^^ y)
      = (-1) ^ popcount_spec x * (-1) ^ popcount_spec y := by
  rw [negOnePow_mod2 _ (popcount_spec x + popcount_spec y) (pc_xor_mod2 x y), pow_add]

theorem and_xor_distrib_left' (a u w : ℕ) : a &&& (u ^^^ w) = (a &&& u) ^^^ (a &&& w) := by
  apply Nat.eq_of_testBit_eq
  intro i
  simp only [Nat.testBit_and, Nat.testBit_xor]
  cases a.testBit i <;> cases u.testBit i <;> cases w.testBit i <;> rfl

theorem testBit_high_low (c : Bool) (L r : ℕ) (h : r < 2 ^ L) (i : ℕ) :
    Nat.testBit (c.toNat * 2 ^ L + r) i = if i = L then c else r.testBit i := by
  cases c
  · simp only [Bool.toNat_false, Nat.zero_mul, Nat.zero_add]
    by_cases hi : i = L
    · subst hi
      rw [if_pos rfl, Nat.testBit_lt_two_pow h]
    · rw [if_neg hi]
  · simp only [Bool.toNat_true, Nat.one_mul]
    rcases Nat.lt_trichotomy i L with hi | hi | hi
    · rw [if_neg (by omega), Nat.testBit_two_pow_add_gt hi]
    · subst hi
      rw [if_pos rfl, Nat.testBit_two_pow_add_eq, Nat.testBit_lt_two_pow h]
      rfl
    · rw [if_neg (by omega), Nat.testBit_lt_two_pow
        (show 2 ^ L + r < 2 ^ i from by
          calc 2 ^ L + r < 2 ^ L + 2 ^ L := by omega
          _ = 2 ^ (L + 1) := by rw [pow_succ]; ring
          _ ≤ 2 ^ i := Nat.pow_le_pow_right (by norm_num) (by omega)),
        Nat.testBit_lt_two_pow
        (show r < 2 ^ i from lt_of_lt_of_le h (Nat.pow_le_pow_right (by norm_num) (by omega)))]

theorem xor_high_low (b c : Bool) (L r1 r2 : ℕ) (h1 : r1 < 2 ^ L) (h2 : r2 < 2 ^ L) :
    (b.toNat * 2 ^ L + r1) ^^^ (c.toNat * 2 ^ L + r2)
      = (xor b c).toNat * 2 ^ L + (r1 ^^^ r2) := by
  apply Nat.eq_of_testBit_eq
  intro i
  rw [Nat.testBit_xor, testBit_high_low b L r1 h1 i, testBit_high_low c L r2 h2 i,
    testBit_high_low (xor b c) L (r1 ^^^ r2) (Nat.xor_lt_two_pow h1 h2) i]
  by_cases hi : i = L
  · rw [if_pos hi, if_pos hi, if_pos hi]
  · rw [if_neg hi, if_neg hi, if_neg hi, Nat.testBit_xor]

theorem two_pow_add_eq_xor (L r : ℕ) (h : r < 2 ^ L) : 2 ^ L + r = 2 ^ L ^^^ r := by
  have := xor_high_low true false L 0 r (Nat.pos_pow_of_pos L (by norm_num)) h
  simpa using this.symm

theorem shiftRight_one_xor (x y : ℕ) : (x ^^^ y) >>> 1 = (x >>> 1) ^^^ (y >>> 1) := by
  apply Nat.eq_of_testBit_eq
  intro i
  rw [Nat.testBit_shiftRight, Nat.testBit_xor, Nat.testBit_xor,
    Nat.testBit_shiftRight, Nat.testBit_shiftRight]

/-- The arithmetic Gray-code value `(i >> 1) XOR i` used by the transform
matrix (`_matrix_M_entry`). -/
def grayVal (i : ℕ) : ℕ := (i >>> 1) ^^^ i

theorem grayVal_zero : grayVal 0 = 0 := rfl

theorem grayVal_lt (r i : ℕ) (h : i < 2 ^ r) : grayVal i < 2 ^ r :=
  Nat.xor_lt_two_pow (lt_of_le_of_lt (by rw [Nat.shiftRight_one]; omega) h) h

theorem grayVal_injective : Function.Injective grayVal := by
  intro a b hab
  unfold grayVal at hab
  have h1 : (a >>> 1) ^^^ (b >>> 1) = a ^^^ b := by
    have h2 : (a >>> 1) ^^^ a ^^^ (a ^^^ (b >>> 1)) = (b >>> 1) ^^^ b ^^^ (a ^^^ (b >>> 1)) := by
      rw [hab]
    calc (a >>> 1) ^^^ (b >>> 1)
        = (a >>> 1) ^^^ a ^^^ (a ^^^ (b >>> 1)) := by
          rw [Nat.xor_assoc, Nat.xor_cancel_left]
      _ = (b >>> 1) ^^^ b ^^^ (a ^^^ (b >>> 1)) := h2
      _ = a ^^^ b := by
          rw [Nat.xor_comm (b >>> 1) b, Nat.xor_assoc, Nat.xor_comm a (b >>> 1),
            Nat.xor_cancel_left, Nat.xor_comm b a]
  have h3 : (a ^^^ b) >>> 1 = a ^^^ b := by rw [shiftRight_one_xor, h1]
  have h4 : a ^^^ b = 0 := by
    rw [Nat.shiftRight_one] at h3
    omega
  exact Nat.xor_eq_zero.mp h4

theorem sub_one_sub_eq_xor (r : ℕ) : ∀ i : ℕ, i < 2 ^ r → 2 ^ r - 1 - i = (2 ^ r - 1) ^^^ i := by
  induction r with
  | zero =>
    intro i hi
    interval_cases i
    rfl
  | succ m ih =>
    intro i hi
    cases i using Nat.bitCasesOn with
    | h b z =>
      have hz : z < 2 ^ m := by
        rw [Nat.bit_val] at hi
        rw [pow_succ] at hi
        rcases b <;> simp at hi <;> omega
      have hmask : 2 ^ (m + 1) - 1 = Nat.bit true (2 ^ m - 1) := by
        rw [Nat.bit_val, pow_succ]
        simp only [Bool.toNat_true]
        have : 1 ≤ 2 ^ m := Nat.one_le_two_pow
        omega
      rw [hmask, Nat.xor_bit, ← ih z hz]
      have h1 : 1 ≤ 2 ^ m := Nat.one_le_two_pow
      have h2 : (2 : ℕ) ^ (m + 1) = 2 * 2 ^ m := by rw [pow_succ]; ring
      cases b <;> simp [Nat.bit_val] <;> omega

theorem xor_left_comm' (a b c : ℕ) : a ^^^ (b ^^^ c) = b ^^^ (a ^^^ c) := by
  rw [← Nat.xor_assoc, Nat.xor_comm a b, Nat.xor_assoc]

theorem grayVal_reflect (r i : ℕ) (hr : 1 ≤ r) (h : i < 2 ^ r) :
    grayVal (2 ^ r + i) = 2 ^ r + grayVal (2 ^ r - 1 - i) := by
  have h1le : 1 ≤ (2 : ℕ) ^ (r - 1) := Nat.one_le_two_pow
  have hsplit : (2 : ℕ) ^ r = 2 * 2 ^ (r - 1) := by
    rw [← pow_succ']
    congr 1
    omega
  have hM : 2 ^ r - 1 - i = (2 ^ r - 1) ^^^ i := sub_one_sub_eq_xor r i h
  have hM2 : (2 ^ r - 1) >>> 1 = 2 ^ (r - 1) - 1 := by
    rw [Nat.shiftRight_one]
    omega
  have hlt : 2 ^ (r - 1) - 1 < 2 ^ (r - 1) := by omega
  have hMx : (2 ^ (r - 1) - 1) ^^^ (2 ^ r - 1) = 2 ^ (r - 1) := by
    have hxl := xor_high_low false true (r - 1) (2 ^ (r - 1) - 1) (2 ^ (r - 1) - 1) hlt hlt
    simp only [Bool.toNat_false, Bool.toNat_true, Nat.zero_mul, Nat.one_mul,
      Nat.zero_add, Bool.false_xor, Nat.xor_self, Nat.add_zero] at hxl
    have hsum : 2 ^ (r - 1) + (2 ^ (r - 1) - 1) = 2 ^ r - 1 := by omega
    rw [hsum] at hxl
    exact hxl
  have hgj : grayVal (2 ^ r - 1 - i) = (2 ^ (r - 1)) ^^^ grayVal i := by
    unfold grayVal
    rw [hM, shiftRight_one_xor, hM2]
    conv_rhs => rw [← hMx]
    simp [Nat.xor_assoc, Nat.xor_comm, xor_left_comm']
  have hlow : (2 ^ (r - 1)) ^^^ grayVal i < 2 ^ r :=
    Nat.xor_lt_two_pow (by
      have : (2 : ℕ) ^ (r - 1) < 2 ^ r := by omega
      exact this) (grayVal_lt r i h)
  rw [hgj, two_pow_add_eq_xor r _ hlow]
  unfold grayVal
  rw [two_pow_add_eq_xor r i h, shiftRight_one_xor]
  have h2r : (2 : ℕ) ^ r >>> 1 = 2 ^ (r - 1) := by
    rw [Nat.shiftRight_one]
    omega
  rw [h2r]
  simp [Nat.xor_assoc, Nat.xor_comm, xor_left_comm']

theorem binToNat_foldl_acc : ∀ (w : List Bool) (acc : ℕ),
    w.foldl (fun a b => 2 * a + (if b then 1 else 0)) acc
      = acc * 2 ^ w.length + binToNat w := by
  intro w
  induction w with
  | nil => intro acc; simp [binToNat]
  | cons b w ih =>
    intro acc
    show w.foldl _ (2 * acc + (if b then 1 else 0)) = _
    rw [ih (2 * acc + (if b then 1 else 0))]
    have hb : binToNat (b :: w) = (if b then 1 else 0) * 2 ^ w.length + binToNat w := by
      show w.foldl _ (2 * 0 + (if b then 1 else 0)) = _
      rw [ih (2 * 0 + (if b then 1 else 0))]
      ring_nf
    rw [hb]
    cases b <;> simp [List.length_cons, pow_succ] <;> ring

theorem binToNat_cons (b : Bool) (w : List Bool) :
    binToNat (b :: w) = b.toNat * 2 ^ w.length + binToNat w := by
  show w.foldl _ (2 * 0 + (if b then 1 else 0)) = _
  rw [binToNat_foldl_acc w (2 * 0 + (if b then 1 else 0))]
  cases b <;> simp

theorem binToNat_lt (w : List Bool) : binToNat w < 2 ^ w.length := by
  induction w with
  | nil => simp [binToNat]
  | cons b w ih =>
    rw [binToNat_cons, List.length_cons, pow_succ]
    cases b <;> simp <;> omega

theorem gray_code_recurse_succ' : ∀ (n : ℕ) (g : List (List Bool)),
    gray_code_recurse g (n + 1) = gray_step (gray_code_recurse g n) := by
  intro n
  induction n with
  | zero => intro g; rfl
  | succ m ih =>
    intro g
    show gray_code_recurse (gray_step g) (m + 1) = _
    rw [ih (gray_step g)]
    rfl

theorem gray_code_succ_nat (r : ℕ) (hr : 1 ≤ r) :
    gray_code (((r + 1 : ℕ)) : ℤ) = gray_step (gray_code (r : ℤ)) := by
  unfold gray_code
  have h1 : (((r + 1 : ℕ) : ℤ) - 1).toNat = r := by
    rw [show (((r + 1 : ℕ) : ℤ) - 1) = (((r + 1 : ℕ) : ℤ) - ((1 : ℕ) : ℤ)) from by norm_num,
      Int.toNat_sub (r + 1) 1]
    omega
  have h2 : (((r : ℕ) : ℤ) - 1).toNat = r - 1 := by
    rw [show (((r : ℕ) : ℤ) - 1) = (((r : ℕ) : ℤ) - ((1 : ℕ) : ℤ)) from by norm_num,
      Int.toNat_sub r 1]
  rw [h1, h2]
  conv_lhs => rw [show r = (r - 1) + 1 from by omega]
  rw [gray_code_recurse_succ']

theorem gray_step_getD_left (g : List (List Bool)) (i : ℕ) (hi : i < g.length) :
    (gray_step g).getD i [] = false :: g.getD i [] := by
  unfold gray_step
  rw [List.getD_eq_getElem?_getD, List.getElem?_append,
    if_pos (show i < (g.map (fun w => false :: w)).length from by simpa using hi),
    List.getElem?_map, List.getElem?_eq_getElem hi]
  rw [List.getD_eq_getElem?_getD, List.getElem?_eq_getElem hi]
  rfl

theorem gray_step_getD_right (g : List (List Bool)) (i : ℕ) (hi : i < g.length) :
    (gray_step g).getD (g.length + i) [] = true :: g.getD (g.length - 1 - i) [] := by
  unfold gray_step
  have hj : g.length - 1 - i < g.length := by omega
  have hnotlt : ¬ (g.length + i < (g.map (fun w => false :: w)).length) := by
    rw [List.length_map]; omega
  have hidx : g.length + i - (g.map (fun w => false :: w)).length = i := by
    rw [List.length_map]; omega
  rw [List.getD_eq_getElem?_getD, List.getElem?_append, if_neg hnotlt, hidx,
    List.getElem?_map, List.getElem?_reverse hi, List.getElem?_eq_getElem hj]
  rw [List.getD_eq_getElem?_getD, List.getElem?_eq_getElem hj]
  rfl

theorem binToNat_gray_code : ∀ r : ℕ, 1 ≤ r → ∀ i, i < 2 ^ r →
    binToNat ((gray_code (r : ℤ)).getD i []) = grayVal i := by
  intro r
  induction r with
  | zero => intro h; omega
  | succ m ih =>
    intro _ i hi
    by_cases hm : m = 0
    · subst hm
      interval_cases i <;> decide
    · have hm1 : 1 ≤ m := by omega
      rw [show ((m + 1 : ℕ) : ℤ) = (((m + 1 : ℕ)) : ℤ) from rfl, gray_code_succ_nat m hm1]
      have hlen : (gray_code ((m : ℕ) : ℤ)).length = 2 ^ m := gray_code_length m hm1
      by_cases hcase : i < 2 ^ m
      · rw [gray_step_getD_left _ i (by rw [hlen]; exact hcase), binToNat_cons]
        simp only [Bool.toNat_false, Nat.zero_mul, Nat.zero_add]
        exact ih hm1 i hcase
      · have hi' : i - 2 ^ m < 2 ^ m := by
          rw [pow_succ] at hi
          omega
        have hisplit : i = (gray_code ((m : ℕ) : ℤ)).length + (i - 2 ^ m) := by
          rw [hlen]; omega
        rw [hisplit, gray_step_getD_right _ _ (by rw [hlen]; exact hi'), hlen]
        have hj : 2 ^ m - 1 - (i - 2 ^ m) < 2 ^ m := by omega
        have hwlen : ((gray_code ((m : ℕ) : ℤ)).getD (2 ^ m - 1 - (i - 2 ^ m)) []).length
            = m := by
          have hmem : (gray_code ((m : ℕ) : ℤ)).getD (2 ^ m - 1 - (i - 2 ^ m)) []
              ∈ gray_code ((m : ℕ) : ℤ) := by
            rw [List.getD_eq_getElem?_getD,
              List.getElem?_eq_getElem (by rw [hlen]; exact hj)]
            simp
          have := (grayInv_gray_code_nat m).2.1 _ hmem
          rwa [show max m 1 = m from by omega] at this
        rw [binToNat_cons, hwlen]
        simp only [Bool.toNat_true, Nat.one_mul]
        rw [ih hm1 _ hj, grayVal_reflect m (i - 2 ^ m) hm1 hi']

theorem pc_two_pow_add : ∀ (r d : ℕ), d < 2 ^ r →
    popcount_spec (2 ^ r + d) = 1 + popcount_spec d := by
  intro r
  induction r with
  | zero =>
    intro d hd
    interval_cases d
    rw [show (2 : ℕ) ^ 0 + 0 = 2 * 0 + 1 from rfl, pc_two_mul_add_one, pc_zero]
  | succ m ih =>
    intro d hd
    cases d using Nat.bitCasesOn with
    | h b z =>
      have hz : z < 2 ^ m := by
        rw [Nat.bit_val, pow_succ] at hd
        cases b <;> simp at hd <;> omega
      have hb : 2 ^ (m + 1) + Nat.bit b z = Nat.bit b (2 ^ m + z) := by
        rw [Nat.bit_val, Nat.bit_val, pow_succ]
        cases b <;> simp <;> ring
      rw [hb, pc_bit, pc_bit, ih z hz]
      omega

theorem pc_high_low (c : Bool) (r d : ℕ) (hd : d < 2 ^ r) :
    popcount_spec (c.toNat * 2 ^ r + d) = c.toNat + popcount_spec d := by
  cases c
  · simp
  · simp only [Bool.toNat_true, Nat.one_mul]
    rw [pc_two_pow_add r d hd]

theorem and_two_pow_add (m r y : ℕ) (hy : y < 2 ^ r) :
    m &&& (2 ^ r + y) = (Nat.testBit m r).toNat * 2 ^ r + (m &&& y) := by
  have handy : m &&& y < 2 ^ r := lt_of_le_of_lt Nat.and_le_right hy
  apply Nat.eq_of_testBit_eq
  intro i
  rw [Nat.testBit_and, testBit_high_low (Nat.testBit m r) r (m &&& y) handy i]
  rcases Nat.lt_trichotomy i r with hi | hi | hi
  · rw [if_neg (by omega), Nat.testBit_two_pow_add_gt hi, Nat.testBit_and]
  · subst hi
    rw [if_pos rfl, Nat.testBit_two_pow_add_eq, Nat.testBit_lt_two_pow hy]
    simp
  · rw [if_neg (by omega), Nat.testBit_and,
      Nat.testBit_lt_two_pow (show y < 2 ^ i from
        lt_of_lt_of_le hy (Nat.pow_le_pow_right (by norm_num) (by omega))),
      Nat.testBit_lt_two_pow (show 2 ^ r + y < 2 ^ i from by
        calc 2 ^ r + y < 2 ^ r + 2 ^ r := by omega
        _ = 2 ^ (r + 1) := by rw [pow_succ]; ring
        _ ≤ 2 ^ i := Nat.pow_le_pow_right (by norm_num) (by omega))]

theorem and_mod_two_pow (m r y : ℕ) (hy : y < 2 ^ r) :
    m &&& y = (m % 2 ^ r) &&& y := by
  apply Nat.eq_of_testBit_eq
  intro i
  rw [Nat.testBit_and, Nat.testBit_and, Nat.testBit_mod_two_pow]
  by_cases hi : i < r
  · rw [decide_eq_true hi]
    simp
  · rw [Nat.testBit_lt_two_pow (show y < 2 ^ i from
      lt_of_lt_of_le hy (Nat.pow_le_pow_right (by norm_num) (by omega)))]
    simp

theorem list_range_map_sum {M : Type} [AddCommMonoid M] (n : ℕ) (f : ℕ → M) :
    ((List.range n).map f).sum = ∑ i ∈ Finset.range n, f i := by
  induction n with
  | zero => simp
  | succ m ih =>
    rw [List.range_succ, List.map_append, List.sum_append, Finset.sum_range_succ, ih]
    simp

theorem char_sum : ∀ (r m : ℕ), m < 2 ^ r →
    (∑ y ∈ Finset.range (2 ^ r), ((-1 : ℝ)) ^ popcount_spec (m &&& y))
      = if m = 0 then (2 ^ r : ℝ) else 0 := by
  intro r
  induction r with
  | zero =>
    intro m hm
    have hm0 : m = 0 := by omega
    subst hm0
    simp [pc_zero]
  | succ r ih =>
    intro m hm
    have hsplit : (2 : ℕ) ^ (r + 1) = 2 ^ r + 2 ^ r := by rw [pow_succ]; ring
    have hbridge : ∀ n : ℕ, ∀ f : ℕ → ℝ, (∑ y ∈ Finset.range n, f y)
        = ((List.range n).map f).sum := fun n f => (list_range_map_sum n f).symm
    rw [hbridge]
    rw [hsplit, List.range_add, List.map_append, List.sum_append, List.map_map]
    have hS : ((List.range (2 ^ r)).map
        (fun y => ((-1 : ℝ)) ^ popcount_spec (m &&& y))).sum
        = if m % 2 ^ r = 0 then (2 ^ r : ℝ) else 0 := by
      have : ∀ y ∈ List.range (2 ^ r),
          ((-1 : ℝ)) ^ popcount_spec (m &&& y)
            = ((-1 : ℝ)) ^ popcount_spec ((m % 2 ^ r) &&& y) := by
        intro y hy
        rw [and_mod_two_pow m r y (List.mem_range.mp hy)]
      rw [List.map_congr_left this, list_range_map_sum]
      exact ih (m % 2 ^ r) (Nat.mod_lt m (Nat.pos_pow_of_pos r (by norm_num)))
    have hhigh : ((List.range (2 ^ r)).map
        ((fun y => ((-1 : ℝ)) ^ popcount_spec (m &&& y)) ∘ fun x => 2 ^ r + x)).sum
        = ((-1 : ℝ)) ^ (Nat.testBit m r).toNat
          * (if m % 2 ^ r = 0 then (2 ^ r : ℝ) else 0) := by
      have hcong : ∀ y ∈ List.range (2 ^ r),
          ((fun y => ((-1 : ℝ)) ^ popcount_spec (m &&& y)) ∘ fun x => 2 ^ r + x) y
            = ((-1 : ℝ)) ^ (Nat.testBit m r).toNat
              * ((-1 : ℝ)) ^ popcount_spec (m &&& y) := by
        intro y hy
        have hy' := List.mem_range.mp hy
        show ((-1 : ℝ)) ^ popcount_spec (m &&& (2 ^ r + y)) = _
        rw [and_two_pow_add m r y hy',
          pc_high_low (Nat.testBit m r) r (m &&& y) (lt_of_le_of_lt Nat.and_le_right hy'),
          pow_add]
      rw [List.map_congr_left hcong, List.sum_map_mul_left, hS]
    rw [hS, hhigh]
    by_cases hm0 : m = 0
    · subst hm0
      simp only [Nat.zero_mod, Nat.zero_testBit, Bool.toNat_false, pow_zero,
        one_mul, reduceIte]
      rw [pow_succ]
      ring
    · rw [if_neg hm0]
      by_cases hbit : Nat.testBit m r
      · rw [hbit]
        simp only [Bool.toNat_true, pow_one]
        by_cases hmod : m % 2 ^ r = 0
        · rw [if_pos hmod]
          ring
        · rw [if_neg hmod]
          ring
      · have hmlt : m < 2 ^ r := by
          have hbitf : Nat.testBit m r = false := by
            cases h : Nat.testBit m r
            · rfl
            · exact absurd h hbit
          rw [Nat.testBit_to_div_mod] at hbitf
          have hbit2 : m / 2 ^ r % 2 ≠ 1 := by
            intro hcon
            rw [hcon] at hbitf
            simp at hbitf
          have h2 : (2 : ℕ) ^ r * 2 = 2 ^ r + 2 ^ r := by ring
          have hdiv : m / 2 ^ r < 2 :=
            (Nat.div_lt_iff_lt_mul (Nat.pos_pow_of_pos r (by norm_num))).mpr (by omega)
          have hdm : m / 2 ^ r = 0 := by
            revert hbit2 hdiv
            generalize (m / 2 ^ r) = X
            intro h1' h2'
            omega
          have hda := Nat.div_add_mod m (2 ^ r)
          rw [hdm, Nat.mul_zero, Nat.zero_add] at hda
          have hmodlt := Nat.mod_lt m (show 0 < 2 ^ r from
            Nat.pos_pow_of_pos r (by norm_num))
          omega
        have hmod : m % 2 ^ r = m := Nat.mod_eq_of_lt hmlt
        rw [hmod, if_neg hm0]
        simp

theorem and_xor_distrib_right' (u w a : ℕ) : (u ^^^ w) &&& a = (u &&& a) ^^^ (w &&& a) := by
  apply Nat.eq_of_testBit_eq
  intro i
  simp only [Nat.testBit_and, Nat.testBit_xor]
  cases a.testBit i <;> cases u.testBit i <;> cases w.testBit i <;> rfl

theorem sign_merge (b j g : ℕ) :
    ((-1 : ℝ)) ^ popcount_spec (b &&& g) * ((-1 : ℝ)) ^ popcount_spec (j &&& g)
      = ((-1 : ℝ)) ^ popcount_spec ((b ^^^ j) &&& g) := by
  rw [and_xor_distrib_right', negOnePow_pc_xor]

theorem compute_theta_getD (r : ℕ) (alpha : List ℝ) (h : alpha.length = 2 ^ r)
    (u : ℕ) (hu : u < 2 ^ r) :
    (compute_theta alpha).getD u 0
      = (∑ j ∈ Finset.range (2 ^ r), ((-1 : ℝ)) ^ popcount_spec (j &&& grayVal u)
          * alpha.getD j 0) / 2 ^ r := by
  unfold compute_theta
  rw [getD_range_map _ _ _ _ (by rw [h]; exact hu), h, @Nat.log2_two_pow r,
    list_range_map_sum]
  congr 1
  apply Finset.sum_congr rfl
  intro j _
  congr 1
  unfold matrix_M_entry
  rw [sum_of_ones_eq_popcount]
  push_cast
  rfl

theorem theta_inversion (r : ℕ) (alpha : List ℝ) (h : alpha.length = 2 ^ r)
    (b : ℕ) (hb : b < 2 ^ r) :
    (∑ u ∈ Finset.range (2 ^ r),
      ((-1 : ℝ)) ^ popcount_spec (b &&& grayVal u) * (compute_theta alpha).getD u 0)
      = alpha.getD b 0 := by
  have hstep : ∀ u ∈ Finset.range (2 ^ r),
      ((-1 : ℝ)) ^ popcount_spec (b &&& grayVal u) * (compute_theta alpha).getD u 0
        = (∑ j ∈ Finset.range (2 ^ r),
            ((-1 : ℝ)) ^ popcount_spec ((b ^^^ j) &&& grayVal u) * alpha.getD j 0)
          / 2 ^ r := by
    intro u hu
    rw [compute_theta_getD r alpha h u (Finset.mem_range.mp hu)]
    rw [div_eq_mul_inv, div_eq_mul_inv, ← mul_assoc, Finset.mul_sum]
    congr 1
    apply Finset.sum_congr rfl
    intro j _
    rw [← mul_assoc, sign_merge]
  rw [Finset.sum_congr rfl hstep, ← Finset.sum_div, Finset.sum_comm]
  have himg : (Finset.range (2 ^ r)).image grayVal = Finset.range (2 ^ r) := by
    apply Finset.eq_of_subset_of_card_le
    · intro y hy
      obtain ⟨u, hu, rfl⟩ := Finset.mem_image.mp hy
      exact Finset.mem_range.mpr (grayVal_lt r u (Finset.mem_range.mp hu))
    · rw [Finset.card_image_of_injective _ grayVal_injective]
  have hreindex : ∀ M : ℕ,
      (∑ u ∈ Finset.range (2 ^ r), ((-1 : ℝ)) ^ popcount_spec (M &&& grayVal u))
        = ∑ y ∈ Finset.range (2 ^ r), ((-1 : ℝ)) ^ popcount_spec (M &&& y) := by
    intro M
    conv_rhs => rw [← himg]
    rw [Finset.sum_image (fun x _ y _ hxy => grayVal_injective hxy)]
  have hper : ∀ j ∈ Finset.range (2 ^ r),
      (∑ u ∈ Finset.range (2 ^ r),
        ((-1 : ℝ)) ^ popcount_spec ((b ^^^ j) &&& grayVal u) * alpha.getD j 0)
        = (if j = b then alpha.getD j 0 * 2 ^ r else 0) := by
    intro j hj
    rw [← Finset.sum_mul, hreindex (b ^^^ j),
      char_sum r (b ^^^ j) (Nat.xor_lt_two_pow hb (Finset.mem_range.mp hj))]
    by_cases hjb : j = b
    · rw [if_pos hjb, if_pos (by rw [hjb, Nat.xor_self]), mul_comm]
    · rw [if_neg hjb, if_neg (fun hcon => hjb (Nat.xor_eq_zero.mp hcon).symm),
        zero_mul]
  rw [Finset.sum_congr rfl hper, Finset.sum_ite_eq' (Finset.range (2 ^ r)) b
    (fun j => alpha.getD j 0 * 2 ^ r), if_pos (Finset.mem_range.mpr hb),
    mul_div_assoc, div_self (by positivity : ((2 : ℝ)) ^ r ≠ 0), mul_one]

/-! ### Semantics of the emitted operations

The execution engine that consumes the Operation sequence lives outside the
analyzed sources, so its semantics is modelled from the spec. -/

/-- Modelled from the spec: wire `w` of an `N`-qubit register addresses the
basis-index bit of significance `2^(N-1-w)` (the caller's first wire is the
most significant bit of the state index).  `flipW` toggles that bit. -/
def flipW (N w x : ℕ) : ℕ := x ^^^ 2 ^ (N - 1 - w)

/-- Modelled from the spec: the value of wire `w` in the basis index `x`. -/
def bitW (N w x : ℕ) : Bool := Nat.testBit x (N - 1 - w)

/-- Modelled from the spec: the execution engine applies single-target
parameterized rotations (`RY(θ)` with matrix
`[[cos θ/2, -sin θ/2], [sin θ/2, cos θ/2]]`, `RZ(θ) = diag(e^{-iθ/2},
e^{iθ/2})`) and two-wire controlled bit-flips, in order, to a state given by
its amplitudes on basis indices. -/
noncomputable def applyOp (N : ℕ) (op : Operation) (psi : ℕ → ℂ) : ℕ → ℂ :=
  match op with
  | Operation.rot Gate.RY theta t => fun x =>
      if bitW N t x then
        ((Real.sin (theta / 2) : ℝ) : ℂ) * psi (flipW N t x)
          + ((Real.cos (theta / 2) : ℝ) : ℂ) * psi x
      else
        ((Real.cos (theta / 2) : ℝ) : ℂ) * psi x
          - ((Real.sin (theta / 2) : ℝ) : ℂ) * psi (flipW N t x)
  | Operation.rot Gate.RZ theta t => fun x =>
      Complex.exp (Complex.I * ((theta : ℝ) : ℂ) * (if bitW N t x then 1 else -1) / 2)
        * psi x
  | Operation.CNOT c t => fun x =>
      if bitW N c x then psi (flipW N t x) else psi x

/-- Modelled from the spec: the engine applies the operations in emission
order to the state. -/
noncomputable def applySeq (N : ℕ) (ops : List Operation) (psi : ℕ → ℂ) : ℕ → ℂ :=
  ops.foldl (fun acc op => applyOp N op acc) psi

/-- The all-zero reference state of the register. -/
noncomputable def refState : ℕ → ℂ := fun x => if x = 0 then 1 else 0

theorem applySeq_nil (N : ℕ) (psi : ℕ → ℂ) : applySeq N [] psi = psi := rfl

theorem applySeq_append (N : ℕ) (l1 l2 : List Operation) (psi : ℕ → ℂ) :
    applySeq N (l1 ++ l2) psi = applySeq N l2 (applySeq N l1 psi) :=
  List.foldl_append _ _ l1 l2

theorem applySeq_single (N : ℕ) (op : Operation) (psi : ℕ → ℂ) :
    applySeq N [op] psi = applyOp N op psi := rfl

theorem flipW_flipW (N t x : ℕ) : flipW N t (flipW N t x) = x :=
  Nat.xor_cancel_right _ x

theorem bitW_flipW_self (N t x : ℕ) : bitW N t (flipW N t x) = ! bitW N t x := by
  unfold bitW flipW
  rw [Nat.testBit_xor, Nat.testBit_two_pow]
  simp

theorem bitW_flipW_ne (N w t x : ℕ) (h : N - 1 - w ≠ N - 1 - t) :
    bitW N w (flipW N t x) = bitW N w x := by
  unfold bitW flipW
  rw [Nat.testBit_xor, Nat.testBit_two_pow]
  rw [decide_eq_false (fun hc => h hc.symm)]
  simp

/-- Pointwise action of a single rotation, the shape in which the expander
output is analyzed. -/
noncomputable def rotA (g : Gate) (phi : ℝ) (N t : ℕ) (psi : ℕ → ℂ) : ℕ → ℂ :=
  applyOp N (Operation.rot g phi t) psi

theorem rotA_zero (g : Gate) (N t : ℕ) (psi : ℕ → ℂ) (x : ℕ) :
    rotA g 0 N t psi x = psi x := by
  cases g <;> simp [rotA, applyOp]

theorem rotA_congr_pair (g : Gate) (phi : ℝ) (N t : ℕ) (psi1 psi2 : ℕ → ℂ) (x : ℕ)
    (h1 : psi1 x = psi2 x) (h2 : psi1 (flipW N t x) = psi2 (flipW N t x)) :
    rotA g phi N t psi1 x = rotA g phi N t psi2 x := by
  cases g
  · simp only [rotA, applyOp]
    rw [h1, h2]
  · simp only [rotA, applyOp]
    rw [h1]

theorem rotA_rotA (g : Gate) (a b : ℝ) (N t : ℕ) (psi : ℕ → ℂ) (x : ℕ) :
    rotA g a N t (rotA g b N t psi) x = rotA g (b + a) N t psi x := by
  have hadd : (b + a) / 2 = a / 2 + b / 2 := by ring
  cases g
  · simp only [rotA, applyOp]
    by_cases hx : bitW N t x
    · rw [if_pos hx]
      rw [show bitW N t (flipW N t x) = false from by rw [bitW_flipW_self, hx]; rfl]
      rw [if_neg (by simp), if_pos hx, flipW_flipW, if_pos hx, hadd,
        Real.sin_add, Real.cos_add]
      push_cast
      ring
    · rw [if_neg hx]
      rw [show bitW N t (flipW N t x) = true from by
        rw [bitW_flipW_self]; rw [Bool.not_eq_true] at hx; rw [hx]; rfl]
      rw [if_pos rfl, if_neg hx, flipW_flipW, if_neg hx, hadd,
        Real.sin_add, Real.cos_add]
      push_cast
      ring
  · simp only [rotA, applyOp]
    rw [← mul_assoc, ← Complex.exp_add]
    congr 1
    push_cast
    ring

theorem rotA_flip_eval (g : Gate) (a : ℝ) (N t : ℕ) (psi : ℕ → ℂ) (x : ℕ) :
    rotA g a N t (fun z => psi (flipW N t z)) x = rotA g (-a) N t psi (flipW N t x) := by
  cases g
  · simp only [rotA, applyOp]
    by_cases hx : bitW N t x
    · rw [if_pos hx]
      rw [show bitW N t (flipW N t x) = false from by rw [bitW_flipW_self, hx]; rfl]
      rw [if_neg (by simp), flipW_flipW, neg_div, Real.sin_neg, Real.cos_neg]
      push_cast
      ring
    · rw [if_neg hx]
      rw [show bitW N t (flipW N t x) = true from by
        rw [bitW_flipW_self]; rw [Bool.not_eq_true] at hx; rw [hx]; rfl]
      rw [if_pos rfl, flipW_flipW, neg_div, Real.sin_neg, Real.cos_neg]
      push_cast
      ring
  · simp only [rotA, applyOp]
    rw [show bitW N t (flipW N t x) = ! bitW N t x from bitW_flipW_self N t x]
    by_cases hx : bitW N t x
    · rw [if_pos hx]
      rw [show (! bitW N t x) = false from by rw [hx]; rfl]
      rw [if_neg (by simp)]
      congr 1
      push_cast
      ring
    · rw [if_neg hx]
      rw [show (! bitW N t x) = true from by
        rw [Bool.not_eq_true] at hx; rw [hx]; rfl]
      rw [if_pos rfl]
      congr 1
      push_cast
      ring

theorem rot_cnot_block_eval (g : Gate) (A th : ℝ) (N w t : ℕ)
    (hwt : N - 1 - w ≠ N - 1 - t) (psi : ℕ → ℂ) (y : ℕ) :
    rotA g A N t (applyOp N (Operation.CNOT w t) (rotA g th N t psi)) y
      = if bitW N w y then rotA g (th - A) N t psi (flipW N t y)
        else rotA g (th + A) N t psi y := by
  by_cases he : bitW N w y
  · rw [if_pos he]
    have hagree1 : applyOp N (Operation.CNOT w t) (rotA g th N t psi) y
        = (fun z => (rotA g th N t psi) (flipW N t z)) y := by
      simp only [applyOp]
      rw [if_pos he]
    have hagree2 : applyOp N (Operation.CNOT w t) (rotA g th N t psi) (flipW N t y)
        = (fun z => (rotA g th N t psi) (flipW N t z)) (flipW N t y) := by
      simp only [applyOp]
      rw [if_pos (by rw [bitW_flipW_ne N w t y hwt]; exact he)]
    have hcg := rotA_congr_pair g A N t
      (applyOp N (Operation.CNOT w t) (rotA g th N t psi))
      (fun z => rotA g th N t psi (flipW N t z)) y hagree1 hagree2
    rw [hcg, rotA_flip_eval, rotA_rotA, sub_eq_add_neg]
  · rw [if_neg he]
    have hagree1 : applyOp N (Operation.CNOT w t) (rotA g th N t psi) y
        = (rotA g th N t psi) y := by
      simp only [applyOp]
      rw [if_neg he]
    have hagree2 : applyOp N (Operation.CNOT w t) (rotA g th N t psi) (flipW N t y)
        = (rotA g th N t psi) (flipW N t y) := by
      simp only [applyOp]
      rw [if_neg (by rw [bitW_flipW_ne N w t y hwt]; exact he)]
    rw [rotA_congr_pair g A N t _ _ y hagree1 hagree2, rotA_rotA]

/-- Little-endian interpretation of a list of bits. -/
def natOfBitsLE : List Bool → ℕ
  | [] => 0
  | b :: rest => b.toNat + 2 * natOfBitsLE rest

/-- The joint value of the control wires in the basis index `x`: bit `k` of
the value is the bit of wire `controlWires[k]`. -/
def ctrlVal (N : ℕ) (cw : List ℕ) (x : ℕ) : ℕ :=
  natOfBitsLE (cw.map (fun w => bitW N w x))

theorem natOfBitsLE_testBit : ∀ (bl : List Bool) (k : ℕ),
    (natOfBitsLE bl).testBit k = bl.getD k false := by
  intro bl
  induction bl with
  | nil => intro k; simp [natOfBitsLE]
  | cons b rest ih =>
    intro k
    have hbit : natOfBitsLE (b :: rest) = Nat.bit b (natOfBitsLE rest) := by
      rw [Nat.bit_val]
      show b.toNat + 2 * natOfBitsLE rest = _
      omega
    rw [hbit]
    cases k with
    | zero => rw [Nat.testBit_bit_zero]; rfl
    | succ m => rw [Nat.testBit_bit_succ, ih m]; rfl

theorem natOfBitsLE_lt : ∀ bl : List Bool, natOfBitsLE bl < 2 ^ bl.length := by
  intro bl
  induction bl with
  | nil => simp [natOfBitsLE]
  | cons b rest ih =>
    show b.toNat + 2 * natOfBitsLE rest < 2 ^ (rest.length + 1)
    rw [pow_succ]
    cases b <;> simp <;> omega

theorem ctrlVal_lt (N : ℕ) (cw : List ℕ) (x : ℕ) : ctrlVal N cw x < 2 ^ cw.length := by
  have := natOfBitsLE_lt (cw.map (fun w => bitW N w x))
  rwa [List.length_map] at this

theorem getD_map_of_lt {α β : Type} (f : α → β) (l : List α) (k : ℕ) (d : α) (d' : β)
    (hk : k < l.length) : (l.map f).getD k d' = f (l.getD k d) := by
  rw [List.getD_eq_getElem?_getD, List.getElem?_map, List.getElem?_eq_getElem hk,
    List.getD_eq_getElem?_getD, List.getElem?_eq_getElem hk]
  rfl

theorem ctrlVal_testBit (N : ℕ) (cw : List ℕ) (x k : ℕ) (hk : k < cw.length) :
    (ctrlVal N cw x).testBit k = bitW N (cw.getD k 0) x := by
  unfold ctrlVal
  rw [natOfBitsLE_testBit]
  have := getD_map_of_lt (fun w => bitW N w x) cw k 0 false hk
  rw [this]

theorem ctrlVal_nil (N x : ℕ) : ctrlVal N [] x = 0 := rfl

theorem grayVal_xor (a b : ℕ) : grayVal a ^^^ grayVal b = grayVal (a ^^^ b) := by
  unfold grayVal
  rw [shiftRight_one_xor]
  simp [Nat.xor_assoc, Nat.xor_comm, xor_left_comm']

theorem xor_succ_mask : ∀ m : ℕ, ∃ s : ℕ, 1 ≤ s ∧ m ^^^ (m + 1) = 2 ^ s - 1 := by
  intro m
  induction m using Nat.binaryRec with
  | z => exact ⟨1, le_rfl, by decide⟩
  | f b n ih =>
    cases b
    · refine ⟨1, le_rfl, ?_⟩
      have h1 : Nat.bit false n + 1 = Nat.bit true n := by
        rw [Nat.bit_val, Nat.bit_val]
        simp
      rw [h1, Nat.xor_bit]
      rw [Nat.bit_val]
      simp
    · obtain ⟨s, hs1, hs⟩ := ih
      refine ⟨s + 1, by omega, ?_⟩
      have h1 : Nat.bit true n + 1 = Nat.bit false (n + 1) := by
        rw [Nat.bit_val, Nat.bit_val]
        simp
        omega
      rw [h1, Nat.xor_bit, Nat.bit_val, hs]
      have hsp : 1 ≤ (2 : ℕ) ^ s := Nat.one_le_two_pow
      have hpow : (2 : ℕ) ^ (s + 1) = 2 * 2 ^ s := by rw [pow_succ]; ring
      simp
      omega

theorem grayVal_two_pow_sub_one (s : ℕ) (hs : 1 ≤ s) :
    grayVal (2 ^ s - 1) = 2 ^ (s - 1) := by
  have h1le : 1 ≤ (2 : ℕ) ^ (s - 1) := Nat.one_le_two_pow
  have hsplit : (2 : ℕ) ^ s = 2 * 2 ^ (s - 1) := by
    rw [← pow_succ']
    congr 1
    omega
  unfold grayVal
  have hM2 : (2 ^ s - 1) >>> 1 = 2 ^ (s - 1) - 1 := by
    rw [Nat.shiftRight_one]
    omega
  rw [hM2]
  have hlt : 2 ^ (s - 1) - 1 < 2 ^ (s - 1) := by omega
  have hxl := xor_high_low false true (s - 1) (2 ^ (s - 1) - 1) (2 ^ (s - 1) - 1) hlt hlt
  simp only [Bool.toNat_false, Bool.toNat_true, Nat.zero_mul, Nat.one_mul,
    Nat.zero_add, Bool.false_xor, Nat.xor_self, Nat.add_zero] at hxl
  have hsum : 2 ^ (s - 1) + (2 ^ (s - 1) - 1) = 2 ^ s - 1 := by omega
  rw [hsum] at hxl
  exact hxl

theorem gray_transition (r : ℕ) (hr : 1 ≤ r) (u : ℕ) (hu : u < 2 ^ r) :
    ∃ c, c < r ∧ grayVal u ^^^ grayVal ((u + 1) % 2 ^ r) = 2 ^ c := by
  by_cases hlast : u + 1 = 2 ^ r
  · refine ⟨r - 1, by omega, ?_⟩
    rw [hlast, Nat.mod_self, grayVal_zero, Nat.xor_zero,
      show u = 2 ^ r - 1 from by omega, grayVal_two_pow_sub_one r hr]
  · rw [Nat.mod_eq_of_lt (by omega), grayVal_xor]
    obtain ⟨s, hs1, hs⟩ := xor_succ_mask u
    have hxl : u ^^^ (u + 1) < 2 ^ r := Nat.xor_lt_two_pow hu (by omega)
    rw [hs] at hxl ⊢
    rw [grayVal_two_pow_sub_one s hs1]
    refine ⟨s - 1, ?_, rfl⟩
    have h2s : (2 : ℕ) ^ s ≤ 2 ^ r := by omega
    have hsr : s ≤ r := by
      by_contra hcon
      have : (2 : ℕ) ^ r < 2 ^ s := Nat.pow_lt_pow_right (by norm_num) (by omega)
      omega
    have : 1 ≤ (2 : ℕ) ^ s := Nat.one_le_two_pow
    omega

/-! ### The expander walk: net effect of the emitted Gray-code block
sequence on one basis index -/

/-- Net target-flip parity of the walk tail that starts at block `m`
(out of `L` blocks), as seen by a basis index whose control value is
`bv`: the parity of the control bits selected by the Gray value of
`m % L`. -/
def walkFlip (bv L m : ℕ) : Bool :=
  decide (popcount_spec (bv &&& grayVal (m % L)) % 2 = 1)

/-- Accumulated rotation angle of the walk tail that starts at block `m`,
on the branch selected by control value `bv`. -/
noncomputable def walkAngle (bv L : ℕ) (theta : ℕ → ℝ) (m : ℕ) : ℝ :=
  ∑ u ∈ Finset.Ico m L,
    ((-1 : ℝ)) ^ popcount_spec (bv &&& (grayVal u ^^^ grayVal (m % L))) * theta u

/-- One emitted block of the expander: the (elided when the angle is zero)
rotation followed by the unconditional bit-flip with control `wOf i`. -/
noncomputable def walkBlock (g : Gate) (theta : ℕ → ℝ) (wOf : ℕ → ℕ) (t i : ℕ) :
    List Operation :=
  (if theta i ≠ 0 then [Operation.rot g (theta i) t] else [])
    ++ [Operation.CNOT (wOf i) t]

theorem walkBlock_applySeq (N : ℕ) (g : Gate) (theta : ℕ → ℝ) (wOf : ℕ → ℕ)
    (t i : ℕ) (psi : ℕ → ℂ) :
    applySeq N (walkBlock g theta wOf t i) psi
      = applyOp N (Operation.CNOT (wOf i) t) (rotA g (theta i) N t psi) := by
  unfold walkBlock
  by_cases h : theta i ≠ 0
  · rw [if_pos h]
    rfl
  · rw [if_neg h, List.nil_append, applySeq_single]
    push_neg at h
    rw [h, funext (rotA_zero g N t psi)]

theorem walk_eval (g : Gate) (N t r : ℕ) (hr : 1 ≤ r) (cw : List ℕ)
    (hcw : cw.length = r) (hsep : ∀ w ∈ cw, N - 1 - w ≠ N - 1 - t)
    (theta : ℕ → ℝ) (y : ℕ) :
    ∀ d m, m + d = 2 ^ r → ∀ psi : ℕ → ℂ,
    applySeq N (((List.range' m d).map (walkBlock g theta
        (fun i => cw.getD
          (Nat.log2 (grayVal i ^^^ grayVal ((i + 1) % 2 ^ r))) 0) t)).flatten)
        psi y
      = (if walkFlip (ctrlVal N cw y) (2 ^ r) m
         then rotA g (walkAngle (ctrlVal N cw y) (2 ^ r) theta m) N t psi
           (flipW N t y)
         else rotA g (walkAngle (ctrlVal N cw y) (2 ^ r) theta m) N t psi y) := by
  intro d
  induction d with
  | zero =>
    intro m hm psi
    have hm' : m = 2 ^ r := by omega
    subst hm'
    have hF : walkFlip (ctrlVal N cw y) (2 ^ r) (2 ^ r) = false := by
      unfold walkFlip
      rw [Nat.mod_self]
      simp [grayVal_zero, pc_zero]
    have hA : walkAngle (ctrlVal N cw y) (2 ^ r) theta (2 ^ r) = 0 := by
      unfold walkAngle
      rw [Finset.Ico_self, Finset.sum_empty]
    rw [hF, hA, if_neg (by simp), rotA_zero]
    rfl
  | succ n ih =>
    intro m hm psi
    have hmlt : m < 2 ^ r := by omega
    rw [List.range'_succ, List.map_cons, List.flatten_cons, applySeq_append,
      walkBlock_applySeq, ih (m + 1) (by omega) _]
    obtain ⟨c, hc, hgc⟩ := gray_transition r hr m hmlt
    have hwm : cw.getD (Nat.log2 (grayVal m ^^^ grayVal ((m + 1) % 2 ^ r))) 0
        = cw.getD c 0 := by
      rw [hgc, Nat.log2_two_pow]
    rw [hwm]
    have hclt : c < cw.length := by omega
    have he : bitW N (cw.getD c 0) y
        = Nat.testBit (ctrlVal N cw y) c := (ctrlVal_testBit N cw y c hclt).symm
    have hsepm : N - 1 - cw.getD c 0 ≠ N - 1 - t := by
      apply hsep
      rw [List.getD_eq_getElem cw 0 hclt]
      exact List.getElem_mem hclt
    have hsplit : grayVal m = 2 ^ c ^^^ grayVal ((m + 1) % 2 ^ r) := by
      rw [← hgc, Nat.xor_assoc, Nat.xor_self, Nat.xor_zero]
    have hpc2 : popcount_spec (ctrlVal N cw y &&& 2 ^ c)
        = (Nat.testBit (ctrlVal N cw y) c).toNat := by
      rw [Nat.and_two_pow]
      cases Nat.testBit (ctrlVal N cw y) c
      · simp [pc_zero]
      · simp [pc_two_pow]
    have hFrec : walkFlip (ctrlVal N cw y) (2 ^ r) m
        = xor (Nat.testBit (ctrlVal N cw y) c)
            (walkFlip (ctrlVal N cw y) (2 ^ r) (m + 1)) := by
      unfold walkFlip
      rw [Nat.mod_eq_of_lt hmlt, hsplit, and_xor_distrib_left',
        pc_xor_mod2, hpc2]
      cases Nat.testBit (ctrlVal N cw y) c
      · simp only [Bool.toNat_false, Nat.zero_add, Bool.false_xor]
      · simp only [Bool.toNat_true, Bool.true_xor]
        generalize popcount_spec (ctrlVal N cw y &&& grayVal ((m + 1) % 2 ^ r)) = P
        rcases Nat.mod_two_eq_zero_or_one P with hp | hp <;>
          simp [Nat.add_mod, hp]
    have hArec : walkAngle (ctrlVal N cw y) (2 ^ r) theta m
        = theta m + (if Nat.testBit (ctrlVal N cw y) c then (-1 : ℝ) else 1)
            * walkAngle (ctrlVal N cw y) (2 ^ r) theta (m + 1) := by
      unfold walkAngle
      rw [Nat.mod_eq_of_lt hmlt, Finset.sum_eq_sum_Ico_succ_bot hmlt]
      congr 1
      · rw [Nat.xor_self, Nat.and_zero, pc_zero, pow_zero, one_mul]
      · rw [Finset.mul_sum]
        apply Finset.sum_congr rfl
        intro u hu
        rw [hsplit,
          show grayVal u ^^^ (2 ^ c ^^^ grayVal ((m + 1) % 2 ^ r))
            = (grayVal u ^^^ grayVal ((m + 1) % 2 ^ r)) ^^^ 2 ^ c from by
            rw [Nat.xor_comm (2 ^ c), Nat.xor_assoc],
          and_xor_distrib_left', negOnePow_pc_xor, hpc2]
        cases Nat.testBit (ctrlVal N cw y) c
        · simp only [Bool.toNat_false, pow_zero, Bool.false_eq_true, if_false]
          ring
        · simp only [Bool.toNat_true, pow_one, if_true]
          ring
    rw [hFrec, hArec]
    cases hF' : walkFlip (ctrlVal N cw y) (2 ^ r) (m + 1) <;>
      cases he' : Nat.testBit (ctrlVal N cw y) c
    · rw [if_neg (by simp),
        rot_cnot_block_eval g _ _ N _ t hsepm psi y, he, he',
        if_neg (by simp), if_neg (by simp), if_neg (by simp), one_mul]
    · rw [if_neg (by simp),
        rot_cnot_block_eval g _ _ N _ t hsepm psi y, he, he',
        if_pos rfl, if_pos (by simp), if_pos rfl, sub_eq_add_neg, neg_one_mul]
    · rw [if_pos rfl,
        rot_cnot_block_eval g _ _ N _ t hsepm psi (flipW N t y),
        bitW_flipW_ne N _ t y hsepm, he, he',
        if_neg (by simp), if_pos (by simp), if_neg (by simp), one_mul]
    · rw [if_pos rfl,
        rot_cnot_block_eval g _ _ N _ t hsepm psi (flipW N t y),
        bitW_flipW_ne N _ t y hsepm, he, he',
        if_pos rfl, flipW_flipW, if_neg (by simp), if_pos rfl,
        sub_eq_add_neg, neg_one_mul]

theorem urd_semantics (g : Gate) (N t : ℕ) (cw : List ℕ) (alpha : List ℝ)
    (halpha : alpha.length = 2 ^ cw.length)
    (hsep : ∀ w ∈ cw, N - 1 - w ≠ N - 1 - t) (psi : ℕ → ℂ) (y : ℕ) :
    applySeq N (uniform_rotation_dagger g alpha cw t) psi y
      = rotA g (alpha.getD (ctrlVal N cw y) 0) N t psi y := by
  by_cases hr0 : cw.length = 0
  · have hcwnil : cw = [] := List.length_eq_zero.mp hr0
    subst hcwnil
    rw [ctrlVal_nil, urd_no_controls]
    have halpha1 : alpha.length = 1 := by simpa using halpha
    obtain ⟨x, hx⟩ := List.length_eq_one.mp halpha1
    subst hx
    rw [theta_singleton]
    by_cases hx0 : x ≠ 0
    · rw [if_pos (by simpa using hx0)]
      rfl
    · push_neg at hx0
      subst hx0
      rw [if_neg (by simp), applySeq_nil]
      exact (rotA_zero g N t psi y).symm
  · have hr : 1 ≤ cw.length := by omega
    have hcode : (gray_code (cw.length : ℤ)).length = 2 ^ cw.length :=
      gray_code_length _ hr
    have hmain : uniform_rotation_dagger g alpha cw t
        = ((List.range' 0 (2 ^ cw.length)).map (walkBlock g
            (fun i => (compute_theta alpha).getD i 0)
            (fun i => cw.getD
              (Nat.log2 (grayVal i ^^^ grayVal ((i + 1) % 2 ^ cw.length))) 0)
            t)).flatten := by
      unfold uniform_rotation_dagger
      rw [if_neg hr0, ← List.range_eq_range']
      simp only [hcode]
      congr 1
      apply List.map_congr_left
      intro i hi
      have hilt : i < 2 ^ cw.length := List.mem_range.mp hi
      unfold walkBlock
      congr 2
      rw [getD_range_map _ _ _ _ hilt,
        binToNat_gray_code cw.length hr i hilt,
        binToNat_gray_code cw.length hr ((i + 1) % 2 ^ cw.length)
          (Nat.mod_lt _ (Nat.pos_pow_of_pos _ (by norm_num)))]
    rw [hmain, walk_eval g N t cw.length hr cw rfl hsep
      (fun i => (compute_theta alpha).getD i 0) y (2 ^ cw.length) 0 (by omega) psi]
    have hF0 : walkFlip (ctrlVal N cw y) (2 ^ cw.length) 0 = false := by
      unfold walkFlip
      rw [Nat.zero_mod]
      simp [grayVal_zero, pc_zero]
    have hA0 : walkAngle (ctrlVal N cw y) (2 ^ cw.length)
        (fun i => (compute_theta alpha).getD i 0) 0
        = alpha.getD (ctrlVal N cw y) 0 := by
      unfold walkAngle
      rw [Nat.zero_mod]
      simp only [grayVal_zero, Nat.xor_zero]
      rw [← Finset.range_eq_Ico]
      exact theta_inversion cw.length alpha halpha (ctrlVal N cw y)
        (ctrlVal_lt N cw y)
    rw [hF0, hA0, if_neg (by simp)]

/-! ### Bit arithmetic for the cascade analysis -/

theorem high_low_xor_low (L a r s : ℕ) (hr : r < 2 ^ L) (hs : s < 2 ^ L) :
    (2 ^ L * a + r) ^^^ s = 2 ^ L * a + (r ^^^ s) := by
  apply Nat.eq_of_testBit_eq
  intro n
  rw [Nat.testBit_xor, Nat.testBit_mul_pow_two_add a hr n,
    Nat.testBit_mul_pow_two_add a (Nat.xor_lt_two_pow hr hs) n]
  by_cases hn : n < L
  · rw [if_pos hn, if_pos hn, Nat.testBit_xor]
  · rw [if_neg hn, if_neg hn,
      Nat.testBit_lt_two_pow (lt_of_lt_of_le hs
        (Nat.pow_le_pow_right (by norm_num) (by omega))), Bool.xor_false]

theorem xor_mod_two_pow (x m k : ℕ) :
    (x ^^^ m) % 2 ^ k = (x % 2 ^ k) ^^^ (m % 2 ^ k) := by
  apply Nat.eq_of_testBit_eq
  intro n
  rw [Nat.testBit_mod_two_pow, Nat.testBit_xor, Nat.testBit_xor,
    Nat.testBit_mod_two_pow, Nat.testBit_mod_two_pow]
  cases hd : decide (n < k) <;> simp

theorem xor_two_pow_of_mod (y k i : ℕ) (h : y % 2 ^ k = 0) (hik : i < k) :
    y ^^^ 2 ^ i = y + 2 ^ i := by
  have hdvd : 2 ^ (i + 1) ∣ y :=
    dvd_trans (pow_dvd_pow 2 (by omega)) (Nat.dvd_of_mod_eq_zero h)
  obtain ⟨a, ha⟩ := hdvd
  subst ha
  have hx := high_low_xor_low (i + 1) a 0 (2 ^ i)
    (Nat.pos_pow_of_pos _ (by norm_num))
    (Nat.pow_lt_pow_right (by norm_num) (by omega))
  rw [Nat.add_zero, Nat.zero_xor] at hx
  exact hx

theorem xor_two_pow_lt_iff (y i N : ℕ) (hiN : i < N) :
    y ^^^ 2 ^ i < 2 ^ N ↔ y < 2 ^ N := by
  have h2 : (2 : ℕ) ^ i < 2 ^ N := Nat.pow_lt_pow_right (by norm_num) hiN
  constructor
  · intro h
    have := Nat.xor_lt_two_pow h h2
    rwa [Nat.xor_assoc, Nat.xor_self, Nat.xor_zero] at this
  · intro h
    exact Nat.xor_lt_two_pow h h2

/-! ### Wire layout of the driver for `wires = List.range N` -/

theorem range_reverse_getD (N i : ℕ) (hi : i < N) :
    (List.range N).reverse.getD i 0 = N - 1 - i := by
  rw [List.getD_eq_getElem _ 0 (by simpa using hi), List.getElem_reverse,
    List.getElem_range]
  simp

theorem range_reverse_drop_getD (N k j : ℕ) (hj : k + j < N) :
    ((List.range N).reverse.drop k).getD j 0 = N - 1 - (k + j) := by
  rw [List.getD_eq_getElem _ 0 (by simp; omega)]
  rw [List.getElem_drop]
  rw [← List.getD_eq_getElem _ 0 (by simpa using hj)]
  exact range_reverse_getD N (k + j) hj

theorem drop_sep (N k : ℕ) (hk1 : 1 ≤ k) (hkN : k ≤ N) :
    ∀ w ∈ (List.range N).reverse.drop k, N - 1 - w ≠ N - 1 - (N - k) := by
  intro w hw
  obtain ⟨j, hj, hwj⟩ := List.mem_iff_getElem.mp hw
  have hjlen : j < N - k := by simpa using hj
  have hw' : w = N - 1 - (k + j) := by
    rw [← hwj, ← List.getD_eq_getElem _ 0 hj]
    exact range_reverse_drop_getD N k j (by omega)
  omega

theorem ctrlVal_drop (N k y : ℕ) (hk : k ≤ N) :
    ctrlVal N ((List.range N).reverse.drop k) y = (y >>> k) % 2 ^ (N - k) := by
  have hlen : ((List.range N).reverse.drop k).length = N - k := by simp
  apply Nat.eq_of_testBit_eq
  intro j
  by_cases hj : j < N - k
  · rw [ctrlVal_testBit N _ y j (by rw [hlen]; exact hj),
      range_reverse_drop_getD N k j (by omega)]
    unfold bitW
    rw [show N - 1 - (N - 1 - (k + j)) = k + j from by omega,
      Nat.testBit_mod_two_pow, Nat.testBit_shiftRight]
    simp [hj]
  · have h0 : ctrlVal N ((List.range N).reverse.drop k) y < 2 ^ (N - k) := by
      rw [← hlen]
      exact ctrlVal_lt N _ y
    have h1 : ctrlVal N ((List.range N).reverse.drop k) y < 2 ^ j :=
      lt_of_lt_of_le h0 (Nat.pow_le_pow_right (by norm_num) (by omega))
    have h2 : (y >>> k) % 2 ^ (N - k) < 2 ^ j :=
      lt_of_lt_of_le (Nat.mod_lt _ (Nat.pos_pow_of_pos _ (by norm_num)))
        (Nat.pow_le_pow_right (by norm_num) (by omega))
    rw [Nat.testBit_lt_two_pow h1, Nat.testBit_lt_two_pow h2]

/-! ### The Y-rotation cascade -/

/-- Summed squared magnitudes of the block of `2^k` amplitudes starting at
index `x`, the quantity whose square root the Y cascade keeps at index `x`. -/
noncomputable def blockSq (a : List ℝ) (k x : ℕ) : ℝ :=
  ((List.range (2 ^ k)).map (fun q => |a.getD (x + q) 0| ^ 2)).sum

/-- Intermediate state of the Y-rotation cascade: after levels
`N, N-1, ..., k+1` have been applied the amplitude lives only on the
multiples of `2^k` below `2^N`, where it equals the root of the summed
squared magnitudes of the `2^k`-block of desired amplitudes starting
there. -/
noncomputable def psiY (a : List ℝ) (N k : ℕ) : ℕ → ℂ :=
  fun x => if x < 2 ^ N ∧ x % 2 ^ k = 0
    then ((Real.sqrt (blockSq a k x) : ℝ) : ℂ) else 0

theorem blockSq_nonneg (a : List ℝ) (k x : ℕ) : 0 ≤ blockSq a k x := by
  unfold blockSq
  rw [list_range_map_sum]
  apply Finset.sum_nonneg
  intro i _
  positivity

theorem blockSq_split (a : List ℝ) (k x : ℕ) (hk : 1 ≤ k) :
    blockSq a k x = blockSq a (k - 1) x + blockSq a (k - 1) (x + 2 ^ (k - 1)) := by
  unfold blockSq
  rw [list_range_map_sum, list_range_map_sum, list_range_map_sum,
    show (2 : ℕ) ^ k = 2 ^ (k - 1) + 2 ^ (k - 1) from by
      have h2 : (2 : ℕ) ^ k = 2 ^ (k - 1) * 2 := by
        rw [← pow_succ]
        congr 1
        omega
      omega,
    Finset.sum_range_add]
  congr 1
  apply Finset.sum_congr rfl
  intro i _
  rw [show x + (2 ^ (k - 1) + i) = x + 2 ^ (k - 1) + i from by omega]

theorem mod_two_pow_succ_bit (y k : ℕ) (hk : 1 ≤ k) :
    y % 2 ^ k = 2 ^ (k - 1) * (y.testBit (k - 1)).toNat + y % 2 ^ (k - 1) := by
  have h2k : (2 : ℕ) ^ k = 2 ^ (k - 1) * 2 := by
    rw [← pow_succ]
    congr 1
    omega
  rw [h2k, Nat.mod_mul, Nat.testBit_to_div_mod]
  rcases Nat.mod_two_eq_zero_or_one (y / 2 ^ (k - 1)) with hp | hp <;>
    rw [hp] <;> simp [Nat.add_comm]

theorem get_alpha_y_getD (a : List ℝ) (n k j : ℕ) (hk : 1 ≤ k)
    (hj : j < 2 ^ (n - k)) :
    (get_alpha_y a n k).getD j 0
      = 2 * Real.arcsin (Real.sqrt (
          if blockSq a k (2 ^ k * j) ≠ 0
          then blockSq a (k - 1) (2 ^ k * j + 2 ^ (k - 1)) / blockSq a k (2 ^ k * j)
          else 0)) := by
  unfold get_alpha_y
  rw [getD_range_map _ _ _ _ hj]
  have h2k : (2 : ℕ) ^ k = 2 ^ (k - 1) * 2 := by
    rw [← pow_succ]
    congr 1
    omega
  have hnum : ((List.range (2 ^ (k - 1))).map (fun l =>
      |a.getD ((2 * (j + 1) - 1) * 2 ^ (k - 1) + l) 0| ^ 2)).sum
      = blockSq a (k - 1) (2 ^ k * j + 2 ^ (k - 1)) := by
    unfold blockSq
    congr 1
    apply List.map_congr_left
    intro l _
    have hidx : (2 * (j + 1) - 1) * 2 ^ (k - 1) + l
        = 2 ^ k * j + 2 ^ (k - 1) + l := by
      rw [show 2 * (j + 1) - 1 = 2 * j + 1 from by omega, h2k]
      ring
    rw [hidx]
  have hden : ((List.range (2 ^ k)).map (fun l =>
      |a.getD (j * 2 ^ k + l) 0| ^ 2)).sum = blockSq a k (2 ^ k * j) := by
    unfold blockSq
    congr 1
    apply List.map_congr_left
    intro l _
    rw [Nat.mul_comm j (2 ^ k)]
  rw [hnum, hden]

/-- Action of the masked-arcsin angle on the square roots: the cosine part
keeps the root of the lower half-block, the sine part produces the root of
the upper half-block.  The masked (`den = 0`) branch degenerates to the
zero state exactly. -/
theorem ry_coeffs (num den low : ℝ) (hnum : 0 ≤ num) (hlow : 0 ≤ low)
    (hsum : den = low + num) :
    Real.cos (2 * Real.arcsin (Real.sqrt
        (if den ≠ 0 then num / den else 0)) / 2) * Real.sqrt den
      = Real.sqrt low
    ∧ Real.sin (2 * Real.arcsin (Real.sqrt
        (if den ≠ 0 then num / den else 0)) / 2) * Real.sqrt den
      = Real.sqrt num := by
  rw [mul_div_cancel_left₀ _ (two_ne_zero)]
  by_cases h : den ≠ 0
  · rw [if_pos h]
    have hdpos : 0 < den := lt_of_le_of_ne (by linarith) (Ne.symm h)
    have hdiv0 : 0 ≤ num / den := div_nonneg hnum (le_of_lt hdpos)
    have hdiv1 : num / den ≤ 1 := (div_le_one hdpos).mpr (by linarith)
    have hne : Real.sqrt den ≠ 0 := ne_of_gt (Real.sqrt_pos.mpr hdpos)
    constructor
    · rw [Real.cos_arcsin, Real.sq_sqrt hdiv0,
        show (1 : ℝ) - num / den = low / den from by
          field_simp
          linarith,
        Real.sqrt_div hlow, div_mul_cancel₀ _ hne]
    · rw [Real.sin_arcsin (le_trans (by norm_num) (Real.sqrt_nonneg _))
          (Real.sqrt_le_one.mpr hdiv1),
        Real.sqrt_div hnum, div_mul_cancel₀ _ hne]
  · rw [if_neg h]
    push_neg at h
    subst h
    have hl0 : low = 0 := by linarith
    have hn0 : num = 0 := by linarith
    rw [hl0, hn0, Real.sqrt_zero, Real.arcsin_zero, Real.cos_zero,
      Real.sin_zero, one_mul, zero_mul]
    exact ⟨rfl, rfl⟩

theorem y_step (a : List ℝ) (N k : ℕ) (hk1 : 1 ≤ k) (hkN : k ≤ N) :
    applySeq N (uniform_rotation_dagger Gate.RY (get_alpha_y a N k)
        ((List.range N).reverse.drop k) ((List.range N).reverse.getD (k - 1) 0))
      (psiY a N k) = psiY a N (k - 1) := by
  have ht : (List.range N).reverse.getD (k - 1) 0 = N - k := by
    rw [range_reverse_getD N (k - 1) (by omega)]
    omega
  have hlen : ((List.range N).reverse.drop k).length = N - k := by simp
  have halpha : (get_alpha_y a N k).length
      = 2 ^ ((List.range N).reverse.drop k).length := by
    rw [hlen]
    unfold get_alpha_y
    simp
  funext y
  rw [ht, urd_semantics Gate.RY N (N - k) _ _ halpha (drop_sep N k hk1 hkN)
    (psiY a N k) y, ctrlVal_drop N k y hkN]
  have hpos : N - 1 - (N - k) = k - 1 := by omega
  simp only [rotA, applyOp, bitW, flipW, hpos]
  by_cases hyN : y < 2 ^ N
  · by_cases hym : y % 2 ^ (k - 1) = 0
    · have hjlt : y >>> k < 2 ^ (N - k) := by
        rw [Nat.shiftRight_eq_div_pow,
          Nat.div_lt_iff_lt_mul (Nat.pos_pow_of_pos _ (by norm_num))]
        calc y < 2 ^ N := hyN
          _ = 2 ^ (N - k) * 2 ^ k := by
            rw [← pow_add]
            congr 1
            omega
      rw [Nat.mod_eq_of_lt hjlt, get_alpha_y_getD a N k (y >>> k) hk1 hjlt]
      have hbit := mod_two_pow_succ_bit y k hk1
      cases hb : y.testBit (k - 1)
      · rw [hb] at hbit
        have hyk : y % 2 ^ k = 0 := by
          rw [hbit, hym]
          simp
        have hyj : 2 ^ k * (y >>> k) = y := by
          rw [Nat.shiftRight_eq_div_pow, Nat.mul_comm]
          exact Nat.div_mul_cancel (Nat.dvd_of_mod_eq_zero hyk)
        rw [hyj]
        have hflip : y ^^^ 2 ^ (k - 1) = y + 2 ^ (k - 1) :=
          xor_two_pow_of_mod y k (k - 1) hyk (by omega)
        have hfmod : (y + 2 ^ (k - 1)) % 2 ^ k = 2 ^ (k - 1) := by
          conv_lhs => rw [← hyj]
          rw [Nat.mul_add_mod]
          exact Nat.mod_eq_of_lt (Nat.pow_lt_pow_right (by norm_num) (by omega))
        have hz : psiY a N k (y ^^^ 2 ^ (k - 1)) = 0 := by
          unfold psiY
          rw [if_neg]
          rintro ⟨-, hc⟩
          rw [hflip, hfmod] at hc
          exact (Nat.pos_pow_of_pos (k - 1) (by norm_num)).ne' hc
        have hy1 : psiY a N k y = ((Real.sqrt (blockSq a k y) : ℝ) : ℂ) := by
          unfold psiY
          rw [if_pos ⟨hyN, hyk⟩]
        have hy2 : psiY a N (k - 1) y
            = ((Real.sqrt (blockSq a (k - 1) y) : ℝ) : ℂ) := by
          unfold psiY
          rw [if_pos ⟨hyN, hym⟩]
        obtain ⟨hcosEq, -⟩ := ry_coeffs (blockSq a (k - 1) (y + 2 ^ (k - 1)))
          (blockSq a k y) (blockSq a (k - 1) y)
          (blockSq_nonneg a (k - 1) (y + 2 ^ (k - 1)))
          (blockSq_nonneg a (k - 1) y) (blockSq_split a k y hk1)
        rw [if_neg (by simp), hz, hy1, hy2, mul_zero, sub_zero,
          ← Complex.ofReal_mul, hcosEq]
      · rw [hb] at hbit
        have hyk : y % 2 ^ k = 2 ^ (k - 1) := by
          rw [hbit, hym]
          simp
        have hy'mod : (y ^^^ 2 ^ (k - 1)) % 2 ^ k = 0 := by
          rw [xor_mod_two_pow, hyk,
            Nat.mod_eq_of_lt (Nat.pow_lt_pow_right (by norm_num) (by omega)),
            Nat.xor_self]
        have hy'N : y ^^^ 2 ^ (k - 1) < 2 ^ N :=
          (xor_two_pow_lt_iff y (k - 1) N (by omega)).mpr hyN
        have hyrec : (y ^^^ 2 ^ (k - 1)) + 2 ^ (k - 1) = y := by
          rw [← xor_two_pow_of_mod (y ^^^ 2 ^ (k - 1)) k (k - 1) hy'mod (by omega),
            Nat.xor_assoc, Nat.xor_self, Nat.xor_zero]
        have hshift : 2 ^ k * (y >>> k) = y ^^^ 2 ^ (k - 1) := by
          obtain ⟨m, hm⟩ := Nat.dvd_of_mod_eq_zero hy'mod
          rw [hm]
          congr 1
          have hy' : y = 2 ^ k * m + 2 ^ (k - 1) := by
            conv_lhs => rw [← hyrec]
            rw [hm]
          rw [hy', Nat.shiftRight_eq_div_pow,
            Nat.mul_add_div (Nat.pos_pow_of_pos _ (by norm_num)),
            Nat.div_eq_of_lt (Nat.pow_lt_pow_right (by norm_num) (by omega)),
            Nat.add_zero]
        rw [hshift]
        have hz : psiY a N k y = 0 := by
          unfold psiY
          rw [if_neg]
          rintro ⟨-, hc⟩
          rw [hyk] at hc
          exact (Nat.pos_pow_of_pos (k - 1) (by norm_num)).ne' hc
        have hy1 : psiY a N k (y ^^^ 2 ^ (k - 1))
            = ((Real.sqrt (blockSq a k (y ^^^ 2 ^ (k - 1))) : ℝ) : ℂ) := by
          unfold psiY
          rw [if_pos ⟨hy'N, hy'mod⟩]
        have hy2 : psiY a N (k - 1) y
            = ((Real.sqrt (blockSq a (k - 1) y) : ℝ) : ℂ) := by
          unfold psiY
          rw [if_pos ⟨hyN, hym⟩]
        have hsplit' : blockSq a k (y ^^^ 2 ^ (k - 1))
            = blockSq a (k - 1) (y ^^^ 2 ^ (k - 1)) + blockSq a (k - 1) y := by
          rw [blockSq_split a k (y ^^^ 2 ^ (k - 1)) hk1, hyrec]
        obtain ⟨-, hsinEq⟩ := ry_coeffs (blockSq a (k - 1) y)
          (blockSq a k (y ^^^ 2 ^ (k - 1))) (blockSq a (k - 1) (y ^^^ 2 ^ (k - 1)))
          (blockSq_nonneg a (k - 1) y) (blockSq_nonneg a (k - 1) (y ^^^ 2 ^ (k - 1)))
          hsplit'
        rw [if_pos rfl, hyrec, hz, hy1, hy2, mul_zero, add_zero,
          ← Complex.ofReal_mul, hsinEq]
    · have hz1 : psiY a N k y = 0 := by
        unfold psiY
        rw [if_neg]
        rintro ⟨-, hc⟩
        exact hym (Nat.mod_eq_zero_of_dvd (dvd_trans (pow_dvd_pow 2 (by omega))
          (Nat.dvd_of_mod_eq_zero hc)))
      have hz2 : psiY a N k (y ^^^ 2 ^ (k - 1)) = 0 := by
        unfold psiY
        rw [if_neg]
        rintro ⟨-, hc⟩
        apply hym
        have hfm : (y ^^^ 2 ^ (k - 1)) % 2 ^ (k - 1) = y % 2 ^ (k - 1) := by
          rw [xor_mod_two_pow, Nat.mod_self, Nat.xor_zero]
        rw [← hfm]
        exact Nat.mod_eq_zero_of_dvd (dvd_trans (pow_dvd_pow 2 (by omega))
          (Nat.dvd_of_mod_eq_zero hc))
      have hz3 : psiY a N (k - 1) y = 0 := by
        unfold psiY
        rw [if_neg]
        rintro ⟨-, hc⟩
        exact hym hc
      rw [hz1, hz2, hz3]
      cases hb : y.testBit (k - 1) <;> simp
  · have hz1 : psiY a N k y = 0 := by
      unfold psiY
      rw [if_neg]
      rintro ⟨hc, -⟩
      exact hyN hc
    have hz2 : psiY a N k (y ^^^ 2 ^ (k - 1)) = 0 := by
      unfold psiY
      rw [if_neg]
      rintro ⟨hc, -⟩
      exact hyN ((xor_two_pow_lt_iff y (k - 1) N (by omega)).mp hc)
    have hz3 : psiY a N (k - 1) y = 0 := by
      unfold psiY
      rw [if_neg]
      rintro ⟨hc, -⟩
      exact hyN hc
    rw [hz1, hz2, hz3]
    cases hb : y.testBit (k - 1) <;> simp

theorem y_cascade (a : List ℝ) (N : ℕ) :
    ∀ j ≤ N, applySeq N (((List.range j).map (fun m =>
        uniform_rotation_dagger Gate.RY (get_alpha_y a N (N - m))
          ((List.range N).reverse.drop (N - m))
          ((List.range N).reverse.getD (N - m - 1) 0))).flatten)
      (psiY a N N) = psiY a N (N - j) := by
  intro j
  induction j with
  | zero =>
    intro _
    simp only [List.range_zero, List.map_nil, List.flatten_nil, applySeq_nil,
      Nat.sub_zero]
  | succ n ih =>
    intro hn
    rw [List.range_succ, List.map_append, List.flatten_append, applySeq_append,
      ih (by omega)]
    simp only [List.map_cons, List.map_nil, List.flatten_cons, List.flatten_nil,
      List.append_nil]
    rw [y_step a N (N - n) (by omega) (by omega), Nat.sub_sub]

theorem psiY_init (a : List ℝ) (N : ℕ) (hnorm : blockSq a N 0 = 1) :
    psiY a N N = refState := by
  funext x
  unfold psiY refState
  by_cases hx : x = 0
  · subst hx
    rw [if_pos ⟨Nat.pos_pow_of_pos _ (by norm_num), Nat.zero_mod _⟩, if_pos rfl,
      hnorm, Real.sqrt_one]
    norm_num
  · rw [if_neg, if_neg hx]
    rintro ⟨hlt, hmod⟩
    exact hx (Nat.eq_zero_of_dvd_of_lt (Nat.dvd_of_mod_eq_zero hmod) hlt)

theorem psiY_final (a : List ℝ) (N x : ℕ) (ha : 0 ≤ a.getD x 0) :
    psiY a N 0 x = if x < 2 ^ N then ((a.getD x 0 : ℝ) : ℂ) else 0 := by
  unfold psiY
  by_cases hx : x < 2 ^ N
  · rw [if_pos ⟨hx, Nat.mod_one x⟩, if_pos hx]
    unfold blockSq
    rw [pow_zero, show List.range 1 = [0] from rfl, List.map_cons, List.map_nil,
      List.sum_cons, List.sum_nil, add_zero, Nat.add_zero,
      Real.sqrt_sq_eq_abs, abs_abs, abs_of_nonneg ha]
  · rw [if_neg (by tauto), if_neg hx]

/-! ### The Z-rotation cascade -/

/-- Mean of the phases over the block of `2^k` indices starting at
`p * 2^k`. -/
noncomputable def blockMean (omega : List ℝ) (k p : ℕ) : ℝ :=
  ((List.range (2 ^ k)).map (fun q => omega.getD (p * 2 ^ k + q) 0)).sum / 2 ^ k

/-- Intermediate state of the Z-rotation cascade: after levels
`N, N-1, ..., k+1` have been applied on top of the magnitudes prepared by
the Y cascade, index `x` carries its magnitude times the phase by which the
mean over its `2^k`-block exceeds the global mean. -/
noncomputable def psiZ (a omega : List ℝ) (N k : ℕ) : ℕ → ℂ :=
  fun x => if x < 2 ^ N then
    Complex.exp (Complex.I
        * ((blockMean omega k (x >>> k) - blockMean omega N 0 : ℝ) : ℂ))
      * ((a.getD x 0 : ℝ) : ℂ)
  else 0

theorem blockMean_zero (omega : List ℝ) (x : ℕ) :
    blockMean omega 0 x = omega.getD x 0 := by
  unfold blockMean
  rw [pow_zero, show List.range 1 = [0] from rfl, List.map_cons, List.map_nil,
    List.sum_cons, List.sum_nil, add_zero, Nat.mul_one, Nat.add_zero]
  norm_num

theorem blockMean_split (omega : List ℝ) (k p : ℕ) (hk : 1 ≤ k) :
    blockMean omega k p
      = (blockMean omega (k - 1) (2 * p) + blockMean omega (k - 1) (2 * p + 1))
          / 2 := by
  unfold blockMean
  have h2k : (2 : ℕ) ^ k = 2 ^ (k - 1) * 2 := by
    rw [← pow_succ]
    congr 1
    omega
  rw [list_range_map_sum, list_range_map_sum, list_range_map_sum,
    show (2 : ℕ) ^ k = 2 ^ (k - 1) + 2 ^ (k - 1) from by omega,
    Finset.sum_range_add]
  have hlow : ∀ i ∈ Finset.range (2 ^ (k - 1)),
      omega.getD (p * (2 ^ (k - 1) + 2 ^ (k - 1)) + i) 0
        = omega.getD (2 * p * 2 ^ (k - 1) + i) 0 := by
    intro i _
    congr 1
    ring
  have hhigh : ∀ i ∈ Finset.range (2 ^ (k - 1)),
      omega.getD (p * (2 ^ (k - 1) + 2 ^ (k - 1)) + (2 ^ (k - 1) + i)) 0
        = omega.getD ((2 * p + 1) * 2 ^ (k - 1) + i) 0 := by
    intro i _
    congr 1
    ring
  rw [Finset.sum_congr rfl hlow, Finset.sum_congr rfl hhigh]
  have hpow : ((2 : ℝ) ^ k) = 2 ^ (k - 1) * 2 := by
    rw [← pow_succ]
    congr 1
    omega
  rw [hpow]
  have hne : ((2 : ℝ) ^ (k - 1)) ≠ 0 := by positivity
  field_simp

theorem get_alpha_z_getD (omega : List ℝ) (n k j : ℕ) (hk : 1 ≤ k)
    (hj : j < 2 ^ (n - k)) :
    (get_alpha_z omega n k).getD j 0
      = blockMean omega (k - 1) (2 * j + 1) - blockMean omega (k - 1) (2 * j) := by
  unfold get_alpha_z blockMean
  rw [getD_range_map _ _ _ _ hj, list_range_map_sum, list_range_map_sum,
    list_range_map_sum, div_sub_div_same, ← Finset.sum_div,
    ← Finset.sum_sub_distrib]
  congr 1

theorem shiftRight_pred (y k : ℕ) (hk : 1 ≤ k) :
    y >>> (k - 1) = 2 * (y >>> k) + (y.testBit (k - 1)).toNat := by
  rw [Nat.testBit_to_div_mod, Nat.shiftRight_eq_div_pow, Nat.shiftRight_eq_div_pow]
  have hdiv : y / 2 ^ k = y / 2 ^ (k - 1) / 2 := by
    rw [Nat.div_div_eq_div_mul, ← pow_succ]
    congr 2
    omega
  rw [hdiv]
  generalize y / 2 ^ (k - 1) = T
  rcases Nat.mod_two_eq_zero_or_one T with hp | hp <;> rw [hp] <;> simp <;> omega

theorem z_step (a omega : List ℝ) (N k : ℕ) (hk1 : 1 ≤ k) (hkN : k ≤ N) :
    applySeq N (uniform_rotation_dagger Gate.RZ (get_alpha_z omega N k)
        ((List.range N).reverse.drop k) ((List.range N).reverse.getD (k - 1) 0))
      (psiZ a omega N k) = psiZ a omega N (k - 1) := by
  have ht : (List.range N).reverse.getD (k - 1) 0 = N - k := by
    rw [range_reverse_getD N (k - 1) (by omega)]
    omega
  have hlen : ((List.range N).reverse.drop k).length = N - k := by simp
  have halpha : (get_alpha_z omega N k).length
      = 2 ^ ((List.range N).reverse.drop k).length := by
    rw [hlen]
    unfold get_alpha_z
    simp
  funext y
  rw [ht, urd_semantics Gate.RZ N (N - k) _ _ halpha (drop_sep N k hk1 hkN)
    (psiZ a omega N k) y, ctrlVal_drop N k y hkN]
  have hpos : N - 1 - (N - k) = k - 1 := by omega
  simp only [rotA, applyOp, bitW, flipW, hpos]
  by_cases hyN : y < 2 ^ N
  · have hjlt : y >>> k < 2 ^ (N - k) := by
      rw [Nat.shiftRight_eq_div_pow,
        Nat.div_lt_iff_lt_mul (Nat.pos_pow_of_pos _ (by norm_num))]
      calc y < 2 ^ N := hyN
        _ = 2 ^ (N - k) * 2 ^ k := by
          rw [← pow_add]
          congr 1
          omega
    rw [Nat.mod_eq_of_lt hjlt, get_alpha_z_getD omega N k (y >>> k) hk1 hjlt]
    have hp1 : psiZ a omega N k y = Complex.exp (Complex.I
        * ((blockMean omega k (y >>> k) - blockMean omega N 0 : ℝ) : ℂ))
      * ((a.getD y 0 : ℝ) : ℂ) := by
      unfold psiZ
      rw [if_pos hyN]
    have hp2 : psiZ a omega N (k - 1) y = Complex.exp (Complex.I
        * ((blockMean omega (k - 1) (y >>> (k - 1)) - blockMean omega N 0 : ℝ) : ℂ))
      * ((a.getD y 0 : ℝ) : ℂ) := by
      unfold psiZ
      rw [if_pos hyN]
    rw [hp1, hp2, ← mul_assoc, ← Complex.exp_add]
    have hsr := shiftRight_pred y k hk1
    have hsplit := blockMean_split omega k (y >>> k) hk1
    cases hb : y.testBit (k - 1)
    · rw [hb] at hsr
      simp only [Bool.toNat_false, Nat.add_zero] at hsr
      rw [if_neg (by simp), hsr, hsplit]
      congr 2
      push_cast
      ring
    · rw [hb] at hsr
      simp only [Bool.toNat_true] at hsr
      rw [if_pos rfl, hsr, hsplit]
      congr 2
      push_cast
      ring
  · have hz1 : psiZ a omega N k y = 0 := by
      unfold psiZ
      rw [if_neg hyN]
    have hz2 : psiZ a omega N (k - 1) y = 0 := by
      unfold psiZ
      rw [if_neg hyN]
    rw [hz1, hz2, mul_zero]

theorem z_cascade (a omega : List ℝ) (N : ℕ) :
    ∀ j ≤ N, applySeq N (((List.range j).map (fun m =>
        uniform_rotation_dagger Gate.RZ (get_alpha_z omega N (N - m))
          ((List.range N).reverse.drop (N - m))
          ((List.range N).reverse.getD (N - m - 1) 0))).flatten)
      (psiZ a omega N N) = psiZ a omega N (N - j) := by
  intro j
  induction j with
  | zero =>
    intro _
    simp only [List.range_zero, List.map_nil, List.flatten_nil, applySeq_nil,
      Nat.sub_zero]
  | succ n ih =>
    intro hn
    rw [List.range_succ, List.map_append, List.flatten_append, applySeq_append,
      ih (by omega)]
    simp only [List.map_cons, List.map_nil, List.flatten_cons, List.flatten_nil,
      List.append_nil]
    rw [z_step a omega N (N - n) (by omega) (by omega), Nat.sub_sub]

theorem psiZ_init (a omega : List ℝ) (N : ℕ) :
    psiZ a omega N N
      = fun x => if x < 2 ^ N then ((a.getD x 0 : ℝ) : ℂ) else 0 := by
  funext x
  unfold psiZ
  by_cases hx : x < 2 ^ N
  · rw [if_pos hx, if_pos hx]
    have hs : x >>> N = 0 := by
      rw [Nat.shiftRight_eq_div_pow]
      exact Nat.div_eq_of_lt hx
    rw [hs, sub_self, Complex.ofReal_zero, mul_zero, Complex.exp_zero, one_mul]
  · rw [if_neg hx, if_neg hx]

/-! ### Assembly of the full driver correctness -/

theorem map_sum_as_range {α : Type} (v : List α) (f : α → ℝ) (d : α) :
    (v.map f).sum = ((List.range v.length).map (fun i => f (v.getD i d))).sum := by
  induction v with
  | nil => rfl
  | cons x xs ih =>
    rw [List.map_cons, List.sum_cons, List.length_cons, List.range_succ_eq_map,
      List.map_cons, List.sum_cons, List.map_map]
    rw [ih]
    congr 1

theorem phase_glue (z : ℂ) (mu : ℝ) :
    Complex.exp (Complex.I * ((Complex.arg z - mu : ℝ) : ℂ))
        * ((Complex.abs z : ℝ) : ℂ)
      = Complex.exp (-(Complex.I * ((mu : ℝ) : ℂ))) * z := by
  conv_rhs => rw [← Complex.abs_mul_exp_arg_mul_I z]
  rw [show Complex.I * ((Complex.arg z - mu : ℝ) : ℂ)
      = -(Complex.I * ((mu : ℝ) : ℂ)) + ((Complex.arg z : ℝ) : ℂ) * Complex.I from by
    push_cast
    ring,
    Complex.exp_add]
  ring

/-- Claim C1: for every N ≥ 1 and every complex state vector of length 2^N
of exact unit norm (which therefore passes validation), the driver succeeds,
and applying the emitted Operation sequence (the Y cascade followed by the
Z cascade) in order to the all-zero reference state of N qubits produces, at
every basis index, the input vector multiplied by a single global complex
phase of magnitude 1. -/
theorem C1_state_preparation (N : ℕ) (hN : 1 ≤ N) (v : List ℂ)
    (hlen : v.length = 2 ^ N)
    (hnorm : (v.map (fun s => Complex.abs s ^ 2)).sum = 1) :
    ∃ ops : List Operation, ∃ c : ℂ,
      MottonenStatePreparation v (List.range N) = Except.ok ops
      ∧ Complex.abs c = 1
      ∧ ∀ x, x < 2 ^ N → applySeq N ops refState x = c * v.getD x 0 := by
  have hA : ∀ i, 0 ≤ (v.map Complex.abs).getD i 0 := by
    intro i
    by_cases hi : i < v.length
    · rw [getD_map_of_lt Complex.abs v i 0 0 hi]
      exact Complex.abs.nonneg _
    · rw [List.getD_eq_default _ _ (by rw [List.length_map]; omega)]
  have hbs : blockSq (v.map Complex.abs) N 0 = 1 := by
    unfold blockSq
    rw [← hnorm, map_sum_as_range v (fun s => Complex.abs s ^ 2) 0, hlen]
    congr 1
    apply List.map_congr_left
    intro q hq
    have hq' : q < 2 ^ N := List.mem_range.mp hq
    rw [Nat.zero_add, getD_map_of_lt Complex.abs v q 0 0 (by omega), sq_abs]
  have hdrv : MottonenStatePreparation v (List.range N)
      = Except.ok ((((List.range N).map (fun m =>
          uniform_rotation_dagger Gate.RY
            (get_alpha_y (v.map Complex.abs) N (N - m))
            ((List.range N).reverse.drop (N - m))
            ((List.range N).reverse.getD (N - m - 1) 0))).flatten)
        ++ (((List.range N).map (fun m =>
          if 0 < (get_alpha_z (v.map Complex.arg) N (N - m)).length then
            uniform_rotation_dagger Gate.RZ
              (get_alpha_z (v.map Complex.arg) N (N - m))
              ((List.range N).reverse.drop (N - m))
              ((List.range N).reverse.getD (N - m - 1) 0)
          else [])).flatten)) := by
    simp only [MottonenStatePreparation, List.length_range]
    rw [if_neg (by simp [hlen]),
      if_neg (not_not_intro (by rw [hnorm]; norm_num))]
  refine ⟨_, Complex.exp (-(Complex.I
      * ((blockMean (v.map Complex.arg) N 0 : ℝ) : ℂ))), hdrv, ?_, ?_⟩
  · rw [Complex.abs_exp]
    simp
  · intro x hx
    rw [applySeq_append, ← psiY_init (v.map Complex.abs) N hbs,
      y_cascade (v.map Complex.abs) N N le_rfl, Nat.sub_self]
    have hzeq : ((List.range N).map (fun m =>
        if 0 < (get_alpha_z (v.map Complex.arg) N (N - m)).length then
          uniform_rotation_dagger Gate.RZ
            (get_alpha_z (v.map Complex.arg) N (N - m))
            ((List.range N).reverse.drop (N - m))
            ((List.range N).reverse.getD (N - m - 1) 0)
        else []))
        = ((List.range N).map (fun m =>
          uniform_rotation_dagger Gate.RZ
            (get_alpha_z (v.map Complex.arg) N (N - m))
            ((List.range N).reverse.drop (N - m))
            ((List.range N).reverse.getD (N - m - 1) 0))) := by
      apply List.map_congr_left
      intro m _
      rw [if_pos]
      rw [show (get_alpha_z (v.map Complex.arg) N (N - m)).length
          = 2 ^ (N - (N - m)) from by
        unfold get_alpha_z
        simp]
      exact Nat.pos_pow_of_pos _ (by norm_num)
    rw [hzeq,
      show psiY (v.map Complex.abs) N 0
          = psiZ (v.map Complex.abs) (v.map Complex.arg) N N from by
        rw [psiZ_init]
        funext x'
        exact psiY_final (v.map Complex.abs) N x' (hA x'),
      z_cascade (v.map Complex.abs) (v.map Complex.arg) N N le_rfl,
      Nat.sub_self]
    unfold psiZ
    rw [if_pos hx, Nat.shiftRight_zero, blockMean_zero,
      getD_map_of_lt Complex.arg v x 0 0 (by omega),
      getD_map_of_lt Complex.abs v x 0 0 (by omega)]
    exact phase_glue (v.getD x 0) (blockMean (v.map Complex.arg) N 0)

/-- Witness for C1 at the concrete instance N = 1, v = [1, 0]. -/
theorem C1_state_preparation_witness :
    ∃ ops : List Operation, ∃ c : ℂ,
      MottonenStatePreparation [(1 : ℂ), 0] (List.range 1) = Except.ok ops
      ∧ Complex.abs c = 1
      ∧ ∀ x, x < 2 ^ 1 → applySeq 1 ops refState x = c * [(1 : ℂ), 0].getD x 0 :=
  C1_state_preparation 1 (by norm_num) [1, 0] (by norm_num) (by simp)

end Mottonen
